import Mathlib

/-!
Verification of the in-memory multi-index engine of the library-management
repository (backend/dsa/avl.py, backend/dsa/hash_table.py, backend/dsa/trie.py,
backend/core/synchronizer.py, backend/services/library.py).

The Python code is shallowly embedded: every class becomes an inductive type,
every method a Lean function translated statement by statement from the source.
Python strings are Lean `String` (Python `<` on strings is code-point
lexicographic, exactly Lean's `String` order; Python `str.lower()` on the ASCII
keys used here is `String.toLower`).  Python `dict` (insertion ordered, as the
trie uses it) is an association list: assignment replaces in place or appends,
`del` removes the unique entry.  SQLAlchemy `Book` rows are a `Book` structure;
two distinct rows always differ in `book_id`, so Python object identity on
books coincides with structural equality here.
-/

/-- A catalog record (`models.Book`): immutable identifier `isbn`, mutable
`title`, plus the fields touched by non-indexed updates. -/
structure Book where
  book_id : Nat
  isbn : String
  title : String
  publication_year : Nat
deriving DecidableEq, Repr

/-! ## Ordered index: `dsa/avl.py` (`AVLNode`, `AVLTree`)

The Python class keeps a `root : Optional[AVLNode]`; here a tree is either
`nil` (Python `None`) or a `node`.  The value type is a parameter because
`core/synchronizer.py` stores `Book` values while `services/library.py`
stores integer `book_id` values. -/

inductive AVLTree (β : Type) where
  | nil : AVLTree β
  | node (key : String) (value : β) (left : AVLTree β) (right : AVLTree β)
      (height : Nat) : AVLTree β
deriving DecidableEq, Repr

namespace AVLTree

variable {β : Type}

/-- `AVLTree._height`: `node.height if node else 0`. -/
def height : AVLTree β → Nat
  | nil => 0
  | node _ _ _ _ h => h

/-- `AVLTree._get_balance`: `_height(node.left) - _height(node.right)` (0 for `None`). -/
def get_balance : AVLTree β → Int
  | nil => 0
  | node _ _ l r _ => (height l : Int) - (height r : Int)

/-- `AVLTree._right_rotate`.  Only ever called on a node with a non-`None`
left child; on any other shape the input is returned unchanged. -/
def right_rotate : AVLTree β → AVLTree β
  | node ky vy (node kx vx a t2 _) r _ =>
      let y := node ky vy t2 r (1 + max (height t2) (height r))
      node kx vx a y (1 + max (height a) (height y))
  | t => t

/-- `AVLTree._left_rotate`. -/
def left_rotate : AVLTree β → AVLTree β
  | node kx vx l (node ky vy t2 b _) _ =>
      let x := node kx vx l t2 (1 + max (height l) (height t2))
      node ky vy x b (1 + max (height x) (height b))
  | t => t

/-- Steps 3–4 of `AVLTree._insert`: check the balance of the node (whose
height was just updated) and apply the rotation case selected by comparing
the inserted key with the child's key. -/
def insRebalance (t : AVLTree β) (k : String) : AVLTree β :=
  match t with
  | nil => nil
  | node nk nv l r h =>
    if 1 < get_balance (node nk nv l r h) then
      match l with
      | nil => node nk nv l r h
      | node lk _ _ _ _ =>
        if k < lk then right_rotate (node nk nv l r h)
        else if lk < k then right_rotate (node nk nv (left_rotate l) r h)
        else node nk nv l r h
    else if get_balance (node nk nv l r h) < -1 then
      match r with
      | nil => node nk nv l r h
      | node rk _ _ _ _ =>
        if rk < k then left_rotate (node nk nv l r h)
        else if k < rk then left_rotate (node nk nv l (right_rotate r) h)
        else node nk nv l r h
    else node nk nv l r h

/-- `AVLTree._insert` (the public `insert` just reassigns the root).
Equal keys overwrite the stored value and return at once. -/
def insert : AVLTree β → String → β → AVLTree β
  | nil, k, v => node k v nil nil 1
  | node nk nv l r h, k, v =>
    if k < nk then
      let l' := insert l k v
      insRebalance (node nk nv l' r (1 + max (height l') (height r))) k
    else if nk < k then
      let r' := insert r k v
      insRebalance (node nk nv l r' (1 + max (height l) (height r'))) k
    else node nk v l r h

/-- `AVLTree._min_value_node`, walking the left spine; the Python call site
passes `node.right` (never `None`), so the arguments are the fields of that
node. -/
def minNode : String → β → AVLTree β → String × β
  | k, v, nil => (k, v)
  | _, _, node k' v' l' _ _ => minNode k' v' l'

/-- Steps 2–4 of `AVLTree._delete`: recompute the height, then rebalance
using the child's balance factor. -/
def delRebalance : AVLTree β → AVLTree β
  | nil => nil
  | node nk nv l r _ =>
    let h2 := 1 + max (height l) (height r)
    if 1 < get_balance (node nk nv l r h2) then
      if 0 ≤ get_balance l then right_rotate (node nk nv l r h2)
      else right_rotate (node nk nv (left_rotate l) r h2)
    else if get_balance (node nk nv l r h2) < -1 then
      if get_balance r ≤ 0 then left_rotate (node nk nv l r h2)
      else left_rotate (node nk nv l (right_rotate r) h2)
    else node nk nv l r h2

/-- `AVLTree._delete`.  The zero/one-child cases return the other child at
once (the Python early `return`); the two-child case copies the in-order
successor into the node and deletes it from the right subtree. -/
def delete : AVLTree β → String → AVLTree β
  | nil, _ => nil
  | node nk nv l r h, k =>
    if k < nk then delRebalance (node nk nv (delete l k) r h)
    else if nk < k then delRebalance (node nk nv l (delete r k) h)
    else
      match l, r with
      | nil, _ => r
      | node lk lv ll lr lh, nil => node lk lv ll lr lh
      | node lk lv ll lr lh, node rk rv rl rr rh =>
        let p := minNode rk rv rl
        delRebalance
          (node p.1 p.2 (node lk lv ll lr lh)
            (delete (node rk rv rl rr rh) p.1) h)

/-- `AVLTree._search` (the public `search` returns `node.value`): equality is
tested first, then the key steers left or right. -/
def search : AVLTree β → String → Option β
  | nil, _ => none
  | node nk nv l r _, k =>
    if nk = k then some nv
    else if k < nk then search l k
    else search r k

/-- `AVLTree._inorder`, collecting the stored values. -/
def inorder_traversal : AVLTree β → List β
  | nil => []
  | node _ v l r _ => inorder_traversal l ++ v :: inorder_traversal r

/-- In-order key/value pairs (the specification-side view of the tree used to
state ordering properties; same traversal as `inorder_traversal`). -/
def inorderKV : AVLTree β → List (String × β)
  | nil => []
  | node k v l r _ => inorderKV l ++ (k, v) :: inorderKV r

/-- Node count, used to state that duplicate-key inserts create no second node. -/
def size : AVLTree β → Nat
  | nil => 0
  | node _ _ l r _ => 1 + size l + size r

end AVLTree

/-! ## Direct index: `dsa/hash_table.py` (`HashTable`)

`self.buckets` is a fixed-size Python list of chains indexed by
`hash(key) mod size`; since every index used is `< size`, it is embedded as a
total function `Nat → List Book` (an array abstraction), updated pointwise.
The collision `print`/`log_system` side effect of `insert` is returned as a
`Bool` so it can be observed. -/

structure HashTable where
  size : Nat
  buckets : Nat → List Book

namespace HashTable

/-- `HashTable.__init__` with the default 1024 buckets, all empty. -/
def empty : HashTable := { size := 1024, buckets := fun _ => [] }

/-- `HashTable._hash`: sum of character codes modulo the table size. -/
def hashOf (ht : HashTable) (key : String) : Nat :=
  (key.data.map Char.toNat).sum % ht.size

/-- The duplicate scan of `HashTable.insert`: find the first chain entry with
`b.isbn == key` and overwrite it in place; `none` if no entry matches. -/
def replaceFirst : List Book → String → Book → Option (List Book)
  | [], _, _ => none
  | b :: t, key, nb =>
    if b.isbn = key then some (nb :: t)
    else (replaceFirst t key nb).map (b :: ·)

/-- `HashTable.insert`.  Overwriting an existing key returns at once; otherwise
the collision event fires exactly when the bucket was non-empty, and the new
record is appended.  The second component is the collision signal. -/
def insert (ht : HashTable) (key : String) (book : Book) : HashTable × Bool :=
  let i := hashOf ht key
  let bucket := ht.buckets i
  match replaceFirst bucket key book with
  | some nb =>
      ({ ht with buckets := fun j => if j = i then nb else ht.buckets j }, false)
  | none =>
      ({ ht with buckets := fun j => if j = i then bucket ++ [book] else ht.buckets j },
       !bucket.isEmpty)

/-- `HashTable.get`: first chain entry with `b.isbn == key`. -/
def get (ht : HashTable) (key : String) : Option Book :=
  (ht.buckets (hashOf ht key)).find? (fun b => b.isbn = key)

/-- The removal scan of `HashTable.delete`: drop the first entry with a
matching `isbn`, keep everything else. -/
def eraseFirst : List Book → String → List Book
  | [], _ => []
  | b :: t, key => if b.isbn = key then t else b :: eraseFirst t key

/-- `HashTable.delete`: remove the first chain match; silently a no-op when the
key is absent (the failure branch only logs). -/
def delete (ht : HashTable) (key : String) : HashTable :=
  let i := hashOf ht key
  { ht with buckets := fun j => if j = i then eraseFirst (ht.buckets i) key else ht.buckets j }

end HashTable

/-! ## Prefix index: `dsa/trie.py` (`TrieNode`, `Trie`)

`children` is a Python `dict` (insertion ordered): embedded as an association
list where assignment to a present character replaces in place, assignment to
an absent character appends, and `del` removes that entry. -/

inductive TrieNode where
  | mk (children : List (Char × TrieNode)) (is_end_of_word : Bool)
      (books : List Book) : TrieNode

namespace TrieNode

def children : TrieNode → List (Char × TrieNode)
  | mk c _ _ => c

def is_end_of_word : TrieNode → Bool
  | mk _ e _ => e

def books : TrieNode → List Book
  | mk _ _ bs => bs

/-- `TrieNode.__init__`: no children, not a word end, no books. -/
def emptyNode : TrieNode := mk [] false []

end TrieNode

/-- `char in node.children` / `node.children[char]` read access (first — and
only — entry for the character). -/
def lookupChild : List (Char × TrieNode) → Char → Option TrieNode
  | [], _ => none
  | (c', t') :: rest, c => if c' = c then some t' else lookupChild rest c

/-- `node.children[char] = t`: replace in place when present, append when
absent (Python dict assignment). -/
def dictSet : List (Char × TrieNode) → Char → TrieNode → List (Char × TrieNode)
  | [], c, t => [(c, t)]
  | (c', t') :: rest, c, t =>
    if c' = c then (c, t) :: rest else (c', t') :: dictSet rest c t

/-- `del node.children[char]` (Python dict deletion preserves the order of the
remaining entries). -/
def dictRemove : List (Char × TrieNode) → Char → List (Char × TrieNode)
  | [], _ => []
  | (c', t') :: rest, c => if c' = c then rest else (c', t') :: dictRemove rest c

/-- The walk/create loop of `Trie.insert` over the (already lowercased)
characters: missing children are fresh `TrieNode()`s; the final node is marked
terminal and the book appended to its payload list. -/
def trieInsertAux : TrieNode → List Char → Book → TrieNode
  | .mk ch _ bs, [], b => .mk ch true (bs ++ [b])
  | .mk ch e bs, c :: cs, b =>
    match lookupChild ch c with
    | some child => .mk (dictSet ch c (trieInsertAux child cs b)) e bs
    | none => .mk (ch ++ [(c, trieInsertAux TrieNode.emptyNode cs b)]) e bs

/-- The walk loop of `Trie.prefix_search` followed by `Trie._collect`:
`findNode` returns the node at the end of the (lowercased) path, if the whole
path exists. -/
def findNode : TrieNode → List Char → Option TrieNode
  | n, [] => some n
  | .mk ch _ _, c :: cs =>
    match lookupChild ch c with
    | some child => findNode child cs
    | none => none

mutual
/-- `Trie._collect`: the node's own payloads (when terminal) followed by the
collections of the children in dict order. -/
def collect : TrieNode → List Book
  | .mk ch e bs => (if e then bs else []) ++ collectChildren ch

def collectChildren : List (Char × TrieNode) → List Book
  | [] => []
  | (_, t) :: rest => collect t ++ collectChildren rest
end

/-- `Trie._delete`: the word argument is already lowercased; the index
argument of the Python code is replaced by recursion on the remaining
characters.  Returns the new node and the `deleted` flag. -/
def trieDeleteAux : TrieNode → List Char → Book → TrieNode × Bool
  | .mk ch e bs, [], b =>
    if e = true ∧ b ∈ bs then
      let bs' := bs.erase b
      (.mk ch (!bs'.isEmpty) bs', true)
    else (.mk ch e bs, false)
  | .mk ch e bs, c :: cs, b =>
    match lookupChild ch c with
    | none => (.mk ch e bs, false)
    | some child =>
      let res := trieDeleteAux child cs b
      if res.2 && res.1.children.isEmpty && !res.1.is_end_of_word then
        (.mk (dictRemove ch c) e bs, res.2)
      else (.mk (dictSet ch c res.1) e bs, res.2)

namespace Trie

/-- `Trie.__init__`: `self.root = TrieNode()`.  A trie is its root node. -/
def empty : TrieNode := TrieNode.emptyNode

/-- `Trie.insert`: lowercase the word, then walk/create. -/
def insert (t : TrieNode) (word : String) (book : Book) : TrieNode :=
  trieInsertAux t word.toLower.data book

/-- `Trie.prefix_search`: lowercase the query, walk the path, collect the
subtree; empty when the path is missing. -/
def prefix_search (t : TrieNode) (p : String) : List Book :=
  match findNode t p.toLower.data with
  | none => []
  | some n => collect n

/-- `Trie.delete`: lowercase the word, then the recursive delete. -/
def delete (t : TrieNode) (word : String) (book : Book) : TrieNode × Bool :=
  trieDeleteAux t word.toLower.data book

end Trie

/-! ## Coordinator: `core/synchronizer.py`

State of the process: the authoritative store (the `books` table, a list of
rows) plus the three indexes of the singleton `DSAEngine` (`core/engine.py`).
`db.add/commit/refresh` appends the row; committing field updates replaces the
row with the same primary key. -/

structure SyncState where
  db : List Book
  avl : AVLTree Book
  hash : HashTable
  trie : TrieNode

/-- The `updated_fields` dict of `update_book` restricted to the fields of
`Book` that are assignable (`book_id` is the primary key and never in it). -/
structure UpdatedFields where
  title : Option String
  isbn : Option String
  publication_year : Option Nat

/-- `setattr(book, key, value)` for each entry of `updated_fields`. -/
def applyFields (b : Book) (f : UpdatedFields) : Book :=
  { b with
    title := f.title.getD b.title
    isbn := f.isbn.getD b.isbn
    publication_year := f.publication_year.getD b.publication_year }

/-- `db.commit()` after mutating fields of a managed row: the store now holds
the new version of the row with that `book_id`. -/
def commitRow (db : List Book) (b : Book) : List Book :=
  db.map (fun x => if x.book_id = b.book_id then b else x)

namespace Sync

/-- The empty startup state (all indexes fresh, store empty). -/
def empty : SyncState :=
  { db := [], avl := .nil, hash := HashTable.empty, trie := Trie.empty }

/-- The three `dsa_engine.*.delete` calls (`delete_book` lines 41–43 and
`update_book` lines 58–60), using the book's current key values. -/
def removeFromIndexes (s : SyncState) (b : Book) : SyncState :=
  { s with
    avl := s.avl.delete b.title.toLower
    hash := s.hash.delete b.isbn
    trie := (Trie.delete s.trie b.title b).1 }

/-- Insertion of one record into the three indexes under its current key
values: the per-record body of the bulk load (`engine.load_books` lines
64–70, whose `avl.insert` call passes no `db` keyword and succeeds).  It is
also the operation that `add_book` lines 29–31 and `update_book` lines 69–71
*attempt*, but those calls spell `dsa_engine.avl.insert(..., db=db)` and
never get past it — see `add_book` and `update_book` below. -/
def insertIntoIndexes (s : SyncState) (b : Book) : SyncState :=
  { s with
    avl := s.avl.insert b.title.toLower b
    hash := (s.hash.insert b.isbn b).1
    trie := Trie.insert s.trie b.title b }

/-- `db.add(book); db.commit(); db.refresh(book)` of `add_book`. -/
def persistNew (s : SyncState) (b : Book) : SyncState :=
  { s with db := s.db ++ [b] }

/-- `synchronizer.add_book`: persist to the store first (line 24–26); the
first index call `dsa_engine.avl.insert(book.title.lower(), book, db=db)`
(line 29) passes a `db` keyword that `AVLTree.insert(self, key, value)`
(avl.py line 35) does not accept, so Python raises `TypeError` there and none
of the three index inserts runs.  The `Bool` is the raised exception; the
state keeps only the mutations made before the raise (the committed row). -/
def add_book (s : SyncState) (b : Book) : SyncState × Bool :=
  (persistNew s b, true)

/-- `synchronizer.delete_book`: remove from the three indexes first, then
delete the row. -/
def delete_book (s : SyncState) (b : Book) : SyncState :=
  let s1 := removeFromIndexes s b
  { s1 with db := s1.db.filter (fun x => x.book_id ≠ b.book_id) }

/-- The persistence step of `update_book`: apply the field changes to the
managed row and commit. -/
def persistFields (s : SyncState) (b : Book) (f : UpdatedFields) : SyncState :=
  { s with db := commitRow s.db (applyFields b f) }

/-- `synchronizer.update_book`: delete the old index entries first (lines
58–60, pre-mutation keys), then apply the field changes and commit (lines
63–66); the re-insert step then raises the same `TypeError` at
`dsa_engine.avl.insert(..., db=db)` (line 69) before any index insert runs,
so the updated record ends up in *no* index.  The `Bool` is the raised
exception; the state keeps the mutations made before the raise. -/
def update_book (s : SyncState) (b : Book) (f : UpdatedFields) : SyncState × Bool :=
  (persistFields (removeFromIndexes s b) b f, true)

end Sync

/-! ## The other coordinator: `services/library.py`

This module keeps its own global structures; it inserts the *raw* title into
the AVL tree and the integer `book_id` into the hash table (whose scan code
reads `b.isbn` from chain elements, so any scan of a non-empty bucket raises
`AttributeError` — embedded as a `Bool` "raised" flag with the mutations
performed before the raise kept, as an uncaught Python exception does). -/

structure LibState where
  db : List Book
  avl : AVLTree Nat
  hash : Nat → List Nat
  trie : TrieNode

namespace Lib

/-- `HashTable._hash` for the `services/library.py` table (default size 1024). -/
def libHash (key : String) : Nat :=
  (key.data.map Char.toNat).sum % 1024

def empty : LibState :=
  { db := [], avl := .nil, hash := fun _ => [], trie := Trie.empty }

/-- `library.add_new_book`: persist, then `avl_titles.insert(book.title,
book.book_id)` (raw title), then `hash_isbn.insert(book.isbn, book.book_id)`
(which scans the chain for `b.isbn` and therefore raises on any non-empty
bucket of ints), then `trie_titles.insert(book.title, book)`. -/
def add_new_book (s : LibState) (b : Book) : LibState × Bool :=
  let s1 := { s with db := s.db ++ [b] }
  let s2 := { s1 with avl := s1.avl.insert b.title b.book_id }
  let bucket := s2.hash (libHash b.isbn)
  if bucket.isEmpty then
    let s3 := { s2 with
      hash := fun j => if j = libHash b.isbn then bucket ++ [b.book_id] else s2.hash j }
    ({ s3 with trie := Trie.insert s3.trie b.title b }, false)
  else (s2, true)

/-- `library.remove_book`: `avl_titles.delete(book.title)` (raw title), then
`hash_isbn.delete(book.isbn)` (raises on a non-empty bucket of ints), then
`trie_titles.delete(book.title, book)`, then the DB delete. -/
def remove_book (s : LibState) (b : Book) : LibState × Bool :=
  let s1 := { s with avl := s.avl.delete b.title }
  let bucket := s1.hash (libHash b.isbn)
  if bucket.isEmpty then
    let s2 := { s1 with trie := (Trie.delete s1.trie b.title b).1 }
    ({ s2 with db := s2.db.filter (fun x => x.book_id ≠ b.book_id) }, false)
  else (s1, true)

/-- `library.update_existing_book`: commit the field changes to the DB
*first*; only if `title` or `isbn` is among the updated fields, call
`remove_book` and then `add_new_book` — both receive the already-mutated book,
so the removals run with the *new* key values. -/
def update_existing_book (s : LibState) (b : Book) (f : UpdatedFields) :
    LibState × Book × Bool :=
  let b' := applyFields b f
  let s1 := { s with db := commitRow s.db b' }
  if f.title.isSome || f.isbn.isSome then
    let r := remove_book s1 b'
    if r.2 then (r.1, b', true)
    else
      let a := add_new_book r.1 b'
      (a.1, b', a.2)
  else (s1, b', false)

end Lib

/-! ## Operation sequences

Reachable states of each structure: every state produced from the empty
structure by the public mutating operations. -/

/-- A public operation on the ordered index. -/
inductive AvlOp (β : Type) where
  | ins (key : String) (value : β)
  | del (key : String)

def applyAvlOp {β : Type} (t : AVLTree β) : AvlOp β → AVLTree β
  | .ins k v => t.insert k v
  | .del k => t.delete k

def applyAvlOps {β : Type} (ops : List (AvlOp β)) : AVLTree β :=
  ops.foldl applyAvlOp .nil

/-- A public operation on the prefix index. -/
inductive TrieOp where
  | ins (word : String) (book : Book)
  | del (word : String) (book : Book)

def applyTrieOp (t : TrieNode) : TrieOp → TrieNode
  | .ins w b => Trie.insert t w b
  | .del w b => (Trie.delete t w b).1

def applyTrieOps (ops : List TrieOp) : TrieNode :=
  ops.foldl applyTrieOp Trie.empty

/-- A coordinator-level mutation of the engine state: the per-record bulk
load (`engine.load_books`) plus the three `core/synchronizer.py` operations
(`add_book` and `update_book` leave the state their raise left behind). -/
inductive SyncOp where
  | load (b : Book)
  | add (b : Book)
  | del (b : Book)
  | upd (b : Book) (f : UpdatedFields)

def applySyncOp (s : SyncState) : SyncOp → SyncState
  | .load b => Sync.insertIntoIndexes s b
  | .add b => (Sync.add_book s b).1
  | .del b => Sync.delete_book s b
  | .upd b f => (Sync.update_book s b f).1

def applySyncOps (ops : List SyncOp) : SyncState :=
  ops.foldl applySyncOp Sync.empty

/-! ## Trie lemmas -/

/-- Every node other than the root satisfies this: pruning (`Trie._delete`)
never leaves a childless non-terminal node behind. -/
def NodeOK (n : TrieNode) : Prop :=
  n.children ≠ [] ∨ n.is_end_of_word = true

/-- All strict descendants of the node are `NodeOK` (the root itself is
exempt). -/
inductive Pruned : TrieNode → Prop
  | intro (ch : List (Char × TrieNode)) (e : Bool) (bs : List Book)
      (hok : ∀ c t, (c, t) ∈ ch → NodeOK t)
      (h : ∀ c t, (c, t) ∈ ch → Pruned t) : Pruned (.mk ch e bs)

/-- A node whose terminal flag is cleared holds no payloads, everywhere.
(`Trie.insert` sets the flag exactly when it appends; `Trie._delete` clears it
exactly when the payload list empties.) -/
inductive Tidy : TrieNode → Prop
  | intro (ch : List (Char × TrieNode)) (e : Bool) (bs : List Book)
      (he : e = false → bs = []) (h : ∀ c t, (c, t) ∈ ch → Tidy t) :
      Tidy (.mk ch e bs)

/-- Children keys are distinct at every node, as in a Python dict. -/
inductive KeysDistinct : TrieNode → Prop
  | intro (ch : List (Char × TrieNode)) (e : Bool) (bs : List Book)
      (hnd : (ch.map Prod.fst).Nodup)
      (h : ∀ c t, (c, t) ∈ ch → KeysDistinct t) : KeysDistinct (.mk ch e bs)

/-- The prefix-search body on already-lowercased characters:
walk the path, collect the subtree. -/
def psAux (n : TrieNode) (p : List Char) : List Book :=
  match findNode n p with
  | none => []
  | some m => collect m

namespace AVLTree

variable {β : Type}

/-- Model operation: insertion into a key-sorted association list,
overwriting on an equal key. -/
def listInsert (k : String) (v : β) : List (String × β) → List (String × β)
  | [] => [(k, v)]
  | (k', v') :: t =>
    if k < k' then (k, v) :: (k', v') :: t
    else if k' < k then (k', v') :: listInsert k v t
    else (k', v) :: t

/-- Model operation: remove the first entry with the given key. -/
def listEraseKey (k : String) : List (String × β) → List (String × β)
  | [] => []
  | (k', v') :: t => if k' = k then t else (k', v') :: listEraseKey k t

/-- Model operation: first value stored under the key. -/
def lookupKey (k : String) : List (String × β) → Option β
  | [] => none
  | (k', v') :: t => if k' = k then some v' else lookupKey k t

/-- All keys of the tree satisfy the predicate. -/
def ForK (p : String → Prop) : AVLTree β → Prop
  | nil => True
  | node k _ l r _ => p k ∧ ForK p l ∧ ForK p r

/-- The binary-search-tree ordering invariant. -/
def Ordered : AVLTree β → Prop
  | nil => True
  | node k _ l r _ => ForK (· < k) l ∧ ForK (k < ·) r ∧ Ordered l ∧ Ordered r

/-- The claim's invariant: every node's stored height is
`1 + max (height left) (height right)` and every balance factor
(left height minus right height) is in `{-1, 0, 1}`. -/
def HB : AVLTree β → Prop
  | nil => True
  | node _ _ l r h =>
      HB l ∧ HB r ∧ h = 1 + max (height l) (height r) ∧
        height r ≤ height l + 1 ∧ height l ≤ height r + 1

/-- Shape of a subtree whose height just grew by an insertion of `k`: either a
fresh leaf, or the child on `k`'s side is the strictly taller one. -/
def grewShape (t : AVLTree β) (k : String) : Prop :=
  match t with
  | nil => False
  | node nk _ l r _ =>
      (l = nil ∧ r = nil) ∨ (k < nk ∧ height l = height r + 1) ∨
        (nk < k ∧ height r = height l + 1)

end AVLTree

/-- A batch of `insert(key, value)` calls on a fresh hash table, in order. -/
def applyHashInserts (ps : List (String × Book)) : HashTable :=
  ps.foldl (fun ht p => (ht.insert p.1 p.2).1) HashTable.empty

/-- A batch of `insert(key, value)` calls on a fresh ordered index, in order. -/
def applyAvlInserts {β : Type} (ps : List (String × β)) : AVLTree β :=
  ps.foldl (fun t p => t.insert p.1 p.2) AVLTree.nil

/-- The most recently inserted value for a key in a batch. -/
def lastIns {β : Type} (ps : List (String × β)) (k : String) : Option β :=
  ps.foldl (fun acc p => if p.1 = k then some p.2 else acc) none

/-- The `insert(r); remove(r); insert(r)` round trip on the three indexes. -/
def insRemIns (s : SyncState) (r : Book) : SyncState :=
  Sync.insertIntoIndexes (Sync.removeFromIndexes (Sync.insertIntoIndexes s r) r) r

/-! Concrete inputs used by the witnesses, counterexamples and the failing
run of the divergent coordinator. -/

def c8book : Book := { book_id := 1, isbn := "i1", title := "Ab", publication_year := 0 }
def c10book : Book := { book_id := 7, isbn := "i7", title := "Dune", publication_year := 1965 }
def c7b1 : Book := { book_id := 1, isbn := "ab", title := "t1", publication_year := 0 }
def c7b2 : Book := { book_id := 2, isbn := "ab", title := "t2", publication_year := 0 }
def c7w1 : Book := { book_id := 1, isbn := "ab", title := "x", publication_year := 0 }
def c7w2 : Book := { book_id := 2, isbn := "ba", title := "y", publication_year := 0 }
def c6b1 : Book := { book_id := 1, isbn := "k1", title := "t1", publication_year := 0 }
def c6b2 : Book := { book_id := 2, isbn := "k1", title := "t2", publication_year := 0 }
def c2book : Book := { book_id := 1, isbn := "i1", title := "Dune", publication_year := 1965 }
def c9w : Book := { book_id := 1, isbn := "i1", title := "a", publication_year := 0 }
def c9r : Book := { book_id := 1, isbn := "i1", title := "a", publication_year := 0 }
def c9c : Book := { book_id := 2, isbn := "i2", title := "a", publication_year := 0 }
def c9t0 : TrieNode := Trie.insert (Trie.insert Trie.empty "a" c9r) "a" c9c

def c1book : Book := { book_id := 1, isbn := "isbn1", title := "a", publication_year := 2000 }
def c1fields : UpdatedFields := { title := some "b", isbn := none, publication_year := none }

/-- The run of `services/library.py update_existing_book` at the failing
input: one stored book titled "a", then an update changing the title to "b". -/
def c1run : LibState × Book × Bool :=
  Lib.update_existing_book (Lib.add_new_book Lib.empty c1book).1 c1book c1fields

/-- A loaded one-book coordinator state: the bulk-load path
(`engine.load_books`, which succeeds) has inserted `c1book` into all three
indexes, and the store holds its row. -/
def c1sync : SyncState :=
  Sync.insertIntoIndexes
    { db := [c1book], avl := AVLTree.nil, hash := HashTable.empty, trie := Trie.empty } c1book

/-- A second record whose identifier "1i" has the same character sum as
`c2book`'s "i1", so it lands in the occupied bucket. -/
def c2clash : Book := { book_id := 2, isbn := "1i", title := "Other", publication_year := 0 }

theorem pruned_mem {ch e bs c t} (hp : Pruned (.mk ch e bs))
    (hm : (c, t) ∈ ch) : NodeOK t ∧ Pruned t := by
  cases hp with
  | intro _ _ _ hok h => exact ⟨hok c t hm, h c t hm⟩

theorem tidy_mem {ch e bs c t} (hp : Tidy (.mk ch e bs))
    (hm : (c, t) ∈ ch) : Tidy t := by
  cases hp with
  | intro _ _ _ _ h => exact h c t hm

theorem tidy_books {ch e bs} (hp : Tidy (.mk ch e bs)) :
    e = false → bs = [] := by
  cases hp with
  | intro _ _ _ he _ => exact he

theorem keysDistinct_mem {ch e bs c t} (hp : KeysDistinct (.mk ch e bs))
    (hm : (c, t) ∈ ch) : KeysDistinct t := by
  cases hp with
  | intro _ _ _ _ h => exact h c t hm

theorem keysDistinct_nodup {ch e bs} (hp : KeysDistinct (.mk ch e bs)) :
    (ch.map Prod.fst).Nodup := by
  cases hp with
  | intro _ _ _ hnd _ => exact hnd

theorem pruned_empty : Pruned TrieNode.emptyNode :=
  ⟨[], false, [], by simp, by simp⟩

theorem tidy_empty : Tidy TrieNode.emptyNode :=
  ⟨[], false, [], fun _ => rfl, by simp⟩

theorem keysDistinct_empty : KeysDistinct TrieNode.emptyNode :=
  ⟨[], false, [], by simp, by simp⟩

/-! Association-list (Python dict) lemmas. -/

theorem lookupChild_mem {ch : List (Char × TrieNode)} {c t}
    (h : lookupChild ch c = some t) : (c, t) ∈ ch := by
  induction ch with
  | nil => simp [lookupChild] at h
  | cons p rest ih =>
    obtain ⟨c', t'⟩ := p
    by_cases hc : c' = c
    · subst hc
      simp [lookupChild] at h
      simp [h]
    · simp [lookupChild, hc] at h
      exact List.mem_cons_of_mem _ (ih h)

theorem mem_dictSet {ch : List (Char × TrieNode)} {c t p}
    (h : p ∈ dictSet ch c t) : p ∈ ch ∨ p = (c, t) := by
  induction ch with
  | nil => simp [dictSet] at h; simp [h]
  | cons q rest ih =>
    obtain ⟨c', t'⟩ := q
    by_cases hc : c' = c
    · subst hc
      simp [dictSet] at h
      rcases h with h | h
      · right; exact h
      · left; exact List.mem_cons_of_mem _ h
    · simp [dictSet, hc] at h
      rcases h with h | h
      · left; simp [h]
      · rcases ih h with h' | h'
        · left; exact List.mem_cons_of_mem _ h'
        · right; exact h'

theorem mem_dictRemove {ch : List (Char × TrieNode)} {c p}
    (h : p ∈ dictRemove ch c) : p ∈ ch := by
  induction ch with
  | nil => simp [dictRemove] at h
  | cons q rest ih =>
    obtain ⟨c', t'⟩ := q
    by_cases hc : c' = c
    · subst hc
      simp [dictRemove] at h
      exact List.mem_cons_of_mem _ h
    · simp [dictRemove, hc] at h
      rcases h with h | h
      · simp [h]
      · exact List.mem_cons_of_mem _ (ih h)

theorem dictSet_ne_nil {ch : List (Char × TrieNode)} {c t} :
    dictSet ch c t ≠ [] := by
  cases ch with
  | nil => simp [dictSet]
  | cons q rest =>
    obtain ⟨c', t'⟩ := q
    by_cases hc : c' = c <;> simp [dictSet, hc]

theorem lookupChild_dictSet_self {ch : List (Char × TrieNode)} {c t} :
    lookupChild (dictSet ch c t) c = some t := by
  induction ch with
  | nil => simp [dictSet, lookupChild]
  | cons q rest ih =>
    obtain ⟨c', t'⟩ := q
    by_cases hc : c' = c
    · subst hc; simp [dictSet, lookupChild]
    · simp [dictSet, lookupChild, hc, ih]

theorem lookupChild_dictSet_other {ch : List (Char × TrieNode)} {c c' t}
    (h : c' ≠ c) : lookupChild (dictSet ch c t) c' = lookupChild ch c' := by
  have h' : ¬ c = c' := fun he => h he.symm
  induction ch with
  | nil => simp [dictSet, lookupChild, h']
  | cons q rest ih =>
    obtain ⟨c'', t''⟩ := q
    by_cases hc : c'' = c
    · subst hc
      simp [dictSet, lookupChild, h']
    · by_cases hc2 : c'' = c' <;> simp [dictSet, lookupChild, hc, hc2, h, ih]

theorem lookupChild_dictRemove_other {ch : List (Char × TrieNode)} {c c'}
    (h : c' ≠ c) : lookupChild (dictRemove ch c) c' = lookupChild ch c' := by
  have h' : ¬ c = c' := fun he => h he.symm
  induction ch with
  | nil => simp [dictRemove]
  | cons q rest ih =>
    obtain ⟨c'', t''⟩ := q
    by_cases hc : c'' = c
    · subst hc
      simp [dictRemove, lookupChild, h']
    · by_cases hc2 : c'' = c' <;> simp [dictRemove, lookupChild, hc, hc2, h, ih]

theorem lookupChild_append_none {ch : List (Char × TrieNode)} {c t}
    (h : lookupChild ch c = none) :
    lookupChild (ch ++ [(c, t)]) c = some t := by
  induction ch with
  | nil => simp [lookupChild]
  | cons q rest ih =>
    obtain ⟨c', t'⟩ := q
    by_cases hc : c' = c
    · simp [lookupChild, hc] at h
    · simp [lookupChild, hc] at h ⊢
      exact ih h

theorem lookupChild_append_other {ch : List (Char × TrieNode)} {c c' t}
    (h : c' ≠ c) : lookupChild (ch ++ [(c, t)]) c' = lookupChild ch c' := by
  have h' : ¬ c = c' := fun he => h he.symm
  induction ch with
  | nil => simp [lookupChild, h']
  | cons q rest ih =>
    obtain ⟨c'', t''⟩ := q
    by_cases hc : c'' = c' <;> simp [lookupChild, hc, ih]

/-- A successful lookup splits the children list at the *first* entry for the
character, and describes `dictSet`/`dictRemove` on it. -/
theorem lookupChild_decomp {ch : List (Char × TrieNode)} {c child}
    (h : lookupChild ch c = some child) :
    ∃ A B, ch = A ++ (c, child) :: B ∧ lookupChild A c = none ∧
      (∀ t, dictSet ch c t = A ++ (c, t) :: B) ∧
      dictRemove ch c = A ++ B := by
  induction ch with
  | nil => simp [lookupChild] at h
  | cons q rest ih =>
    obtain ⟨c', t'⟩ := q
    by_cases hc : c' = c
    · subst hc
      simp [lookupChild] at h
      subst h
      exact ⟨[], rest, by simp [lookupChild, dictSet, dictRemove]⟩
    · simp [lookupChild, hc] at h
      obtain ⟨A, B, hch, hA, hset, hrem⟩ := ih h
      refine ⟨(c', t') :: A, B, by simp [hch], ?_, ?_, ?_⟩
      · simp [lookupChild, hc, hA]
      · intro t; simp [dictSet, hc, hset t]
      · simp [dictRemove, hc, hrem]

theorem lookupChild_none_not_mem {ch : List (Char × TrieNode)} {c}
    (h : lookupChild ch c = none) : c ∉ ch.map Prod.fst := by
  induction ch with
  | nil => simp
  | cons q rest ih =>
    obtain ⟨c', t'⟩ := q
    by_cases hc : c' = c
    · simp [lookupChild, hc] at h
    · simp [lookupChild, hc] at h
      simp only [List.map_cons, List.mem_cons]
      push_neg
      exact ⟨fun he => hc he.symm, ih h⟩

theorem dictSet_keys_of_found {ch : List (Char × TrieNode)} {c child t}
    (h : lookupChild ch c = some child) :
    (dictSet ch c t).map Prod.fst = ch.map Prod.fst := by
  obtain ⟨A, B, hch, _, hset, _⟩ := lookupChild_decomp h
  rw [hset t, hch]
  simp


theorem prefix_search_eq_psAux (t : TrieNode) (p : String) :
    Trie.prefix_search t p = psAux t p.toLower.data := rfl

theorem collectChildren_append (A B : List (Char × TrieNode)) :
    collectChildren (A ++ B) = collectChildren A ++ collectChildren B := by
  induction A with
  | nil => simp [collectChildren]
  | cons q rest ih =>
    obtain ⟨c, t⟩ := q
    simp [collectChildren, ih]

/-- `Trie.insert` keeps the no-garbage-nodes invariant and produces a node
that is itself `NodeOK`. -/
theorem trieInsertAux_pruned (cs : List Char) :
    ∀ (n : TrieNode) (b : Book), Pruned n →
      Pruned (trieInsertAux n cs b) ∧ NodeOK (trieInsertAux n cs b) := by
  induction cs with
  | nil =>
    rintro ⟨ch, e, bs⟩ b hp
    cases hp with
    | intro _ _ _ hok h =>
      exact ⟨Pruned.intro ch true (bs ++ [b]) hok h, Or.inr rfl⟩
  | cons c cs ih =>
    rintro ⟨ch, e, bs⟩ b hp
    cases hlk : lookupChild ch c with
    | some child =>
      have hchild := (pruned_mem hp (lookupChild_mem hlk)).2
      have hih := ih child b hchild
      simp only [trieInsertAux, hlk]
      refine ⟨Pruned.intro _ _ _ ?_ ?_, Or.inl (by simp [TrieNode.children, dictSet_ne_nil])⟩
      · intro c' t' hm
        rcases mem_dictSet hm with h' | h'
        · exact (pruned_mem hp h').1
        · cases h'; exact hih.2
      · intro c' t' hm
        rcases mem_dictSet hm with h' | h'
        · exact (pruned_mem hp h').2
        · cases h'; exact hih.1
    | none =>
      have hih := ih TrieNode.emptyNode b pruned_empty
      simp only [trieInsertAux, hlk]
      refine ⟨Pruned.intro _ _ _ ?_ ?_, Or.inl (by simp [TrieNode.children])⟩
      · intro c' t' hm
        rcases List.mem_append.1 hm with h' | h'
        · exact (pruned_mem hp h').1
        · simp at h'
          rcases h' with ⟨h1, h2⟩
          subst h2; exact hih.2
      · intro c' t' hm
        rcases List.mem_append.1 hm with h' | h'
        · exact (pruned_mem hp h').2
        · simp at h'
          rcases h' with ⟨h1, h2⟩
          subst h2; exact hih.1

/-- `Trie.insert` keeps the terminal-flag/payload discipline. -/
theorem trieInsertAux_tidy (cs : List Char) :
    ∀ (n : TrieNode) (b : Book), Tidy n → Tidy (trieInsertAux n cs b) := by
  induction cs with
  | nil =>
    rintro ⟨ch, e, bs⟩ b hp
    cases hp with
    | intro _ _ _ he h =>
      exact Tidy.intro ch true (bs ++ [b]) (by simp) h
  | cons c cs ih =>
    rintro ⟨ch, e, bs⟩ b hp
    cases hlk : lookupChild ch c with
    | some child =>
      have hih := ih child b (tidy_mem hp (lookupChild_mem hlk))
      simp only [trieInsertAux, hlk]
      refine Tidy.intro _ _ _ (tidy_books hp) ?_
      intro c' t' hm
      rcases mem_dictSet hm with h' | h'
      · exact tidy_mem hp h'
      · cases h'; exact hih
    | none =>
      have hih := ih TrieNode.emptyNode b tidy_empty
      simp only [trieInsertAux, hlk]
      refine Tidy.intro _ _ _ (tidy_books hp) ?_
      intro c' t' hm
      rcases List.mem_append.1 hm with h' | h'
      · exact tidy_mem hp h'
      · simp at h'
        rcases h' with ⟨h1, h2⟩
        subst h2; exact hih

/-- `Trie.insert` keeps children keys distinct (Python dict semantics). -/
theorem trieInsertAux_keysDistinct (cs : List Char) :
    ∀ (n : TrieNode) (b : Book), KeysDistinct n →
      KeysDistinct (trieInsertAux n cs b) := by
  induction cs with
  | nil =>
    rintro ⟨ch, e, bs⟩ b hp
    cases hp with
    | intro _ _ _ hnd h => exact KeysDistinct.intro ch true (bs ++ [b]) hnd h
  | cons c cs ih =>
    rintro ⟨ch, e, bs⟩ b hp
    cases hlk : lookupChild ch c with
    | some child =>
      have hih := ih child b (keysDistinct_mem hp (lookupChild_mem hlk))
      simp only [trieInsertAux, hlk]
      refine KeysDistinct.intro _ _ _ ?_ ?_
      · rw [dictSet_keys_of_found hlk]
        exact keysDistinct_nodup hp
      · intro c' t' hm
        rcases mem_dictSet hm with h' | h'
        · exact keysDistinct_mem hp h'
        · cases h'; exact hih
    | none =>
      have hih := ih TrieNode.emptyNode b keysDistinct_empty
      simp only [trieInsertAux, hlk]
      refine KeysDistinct.intro _ _ _ ?_ ?_
      · have hnm := lookupChild_none_not_mem hlk
        have hnd := keysDistinct_nodup hp
        simp [List.nodup_append, hnd, hnm]
      · intro c' t' hm
        rcases List.mem_append.1 hm with h' | h'
        · exact keysDistinct_mem hp h'
        · simp at h'
          rcases h' with ⟨h1, h2⟩
          subst h2; exact hih

theorem dictSet_found_eq {ch : List (Char × TrieNode)} {c t}
    (h : lookupChild ch c = some t) : dictSet ch c t = ch := by
  obtain ⟨A, B, hch, _, hset, _⟩ := lookupChild_decomp h
  rw [hset t, hch]

/-- `Trie._delete` returning `False` leaves the trie unchanged. -/
theorem trieDeleteAux_false (cs : List Char) :
    ∀ (n : TrieNode) (b : Book), (trieDeleteAux n cs b).2 = false →
      (trieDeleteAux n cs b).1 = n := by
  induction cs with
  | nil =>
    rintro ⟨ch, e, bs⟩ b h
    by_cases hc : e = true ∧ b ∈ bs
    · simp [trieDeleteAux, hc] at h
    · simp [trieDeleteAux, hc]
  | cons c cs ih =>
    rintro ⟨ch, e, bs⟩ b h
    cases hlk : lookupChild ch c with
    | none => simp only [trieDeleteAux, hlk]
    | some child =>
      rcases hres : trieDeleteAux child cs b with ⟨n1, d1⟩
      by_cases hcond : (d1 && n1.children.isEmpty && !n1.is_end_of_word) = true
      · simp only [trieDeleteAux, hlk, hres, hcond, if_true] at h
        simp [h] at hcond
      · simp only [trieDeleteAux, hlk, hres, hcond, if_false] at h ⊢
        have hn1 : n1 = child := by
          have := ih child b
          rw [hres] at this
          exact this h
        rw [hn1, dictSet_found_eq hlk]
        simp

/-- `Trie._delete` succeeds exactly when the whole path exists, its final node
is terminal, and the book occurs in its payload list. -/
theorem trieDeleteAux_true_iff (cs : List Char) :
    ∀ (n : TrieNode) (b : Book),
      (trieDeleteAux n cs b).2 = true ↔
        ∃ m, findNode n cs = some m ∧ m.is_end_of_word = true ∧ b ∈ m.books := by
  induction cs with
  | nil =>
    rintro ⟨ch, e, bs⟩ b
    by_cases hc : e = true ∧ b ∈ bs
    · simp [trieDeleteAux, hc, findNode, TrieNode.is_end_of_word, TrieNode.books, hc.1, hc.2]
    · simp only [trieDeleteAux, hc, if_false, findNode]
      simp [TrieNode.is_end_of_word, TrieNode.books]
      intro h1 h2
      exact absurd ⟨h1, h2⟩ hc
  | cons c cs ih =>
    rintro ⟨ch, e, bs⟩ b
    cases hlk : lookupChild ch c with
    | none => simp [trieDeleteAux, hlk, findNode]
    | some child =>
      rcases hres : trieDeleteAux child cs b with ⟨n1, d1⟩
      have hsnd : (trieDeleteAux (.mk ch e bs) (c :: cs) b).2 = d1 := by
        by_cases hcond : (d1 && n1.children.isEmpty && !n1.is_end_of_word) = true <;>
          simp only [trieDeleteAux, hlk, hres, hcond, if_true, if_false] <;> simp
      rw [hsnd]
      have := ih child b
      rw [hres] at this
      simpa [findNode, hlk] using this

theorem dictRemove_keys_sublist {ch : List (Char × TrieNode)} {c child}
    (h : lookupChild ch c = some child) :
    ((dictRemove ch c).map Prod.fst).Sublist (ch.map Prod.fst) := by
  obtain ⟨A, B, hch, _, _, hrem⟩ := lookupChild_decomp h
  rw [hrem, hch]
  simp only [List.map_append, List.map_cons]
  exact (List.Sublist.refl _).append (List.sublist_cons_self _ _)

/-- `Trie._delete` keeps the no-garbage-nodes invariant: the only child it can
leave childless and non-terminal is pruned on the way back up. -/
theorem trieDeleteAux_pruned (cs : List Char) :
    ∀ (n : TrieNode) (b : Book), Pruned n → Pruned ((trieDeleteAux n cs b).1) := by
  induction cs with
  | nil =>
    rintro ⟨ch, e, bs⟩ b hp
    cases hp with
    | intro _ _ _ hok h =>
      by_cases hc : e = true ∧ b ∈ bs
      · simp only [trieDeleteAux, hc, if_true]
        exact Pruned.intro _ _ _ hok h
      · simp only [trieDeleteAux, hc, if_false]
        exact Pruned.intro _ _ _ hok h
  | cons c cs ih =>
    rintro ⟨ch, e, bs⟩ b hp
    cases hlk : lookupChild ch c with
    | none =>
      simp only [trieDeleteAux, hlk]
      exact hp
    | some child =>
      rcases hres : trieDeleteAux child cs b with ⟨n1, d1⟩
      have hn1p : Pruned n1 := by
        have := ih child b (pruned_mem hp (lookupChild_mem hlk)).2
        rwa [hres] at this
      by_cases hcond : (d1 && n1.children.isEmpty && !n1.is_end_of_word) = true
      · simp only [trieDeleteAux, hlk, hres, hcond, if_true]
        refine Pruned.intro _ _ _ ?_ ?_
        · intro c' t' hm
          exact (pruned_mem hp (mem_dictRemove hm)).1
        · intro c' t' hm
          exact (pruned_mem hp (mem_dictRemove hm)).2
      · simp only [trieDeleteAux, hlk, hres, hcond, if_false]
        have hok : NodeOK n1 := by
          by_cases hd1 : d1 = true
          · rw [hd1] at hcond
            simp only [Bool.true_and] at hcond
            rcases hch : n1.children with _ | ⟨q, rest⟩
            · right
              simp [hch] at hcond
              exact hcond
            · left; simp [hch]
          · have hf : d1 = false := by simpa using hd1
            have hu := trieDeleteAux_false cs child b
            rw [hres] at hu
            simp only [hf] at hu
            rw [hu trivial]
            exact (pruned_mem hp (lookupChild_mem hlk)).1
        refine Pruned.intro _ _ _ ?_ ?_
        · intro c' t' hm
          rcases mem_dictSet hm with h' | h'
          · exact (pruned_mem hp h').1
          · cases h'; exact hok
        · intro c' t' hm
          rcases mem_dictSet hm with h' | h'
          · exact (pruned_mem hp h').2
          · cases h'; exact hn1p

/-- `Trie._delete` keeps the terminal-flag/payload discipline: the flag is
cleared exactly when the payload list empties. -/
theorem trieDeleteAux_tidy (cs : List Char) :
    ∀ (n : TrieNode) (b : Book), Tidy n → Tidy ((trieDeleteAux n cs b).1) := by
  induction cs with
  | nil =>
    rintro ⟨ch, e, bs⟩ b hp
    cases hp with
    | intro _ _ _ he h =>
      by_cases hc : e = true ∧ b ∈ bs
      · simp only [trieDeleteAux, hc, if_true]
        refine Tidy.intro _ _ _ ?_ h
        intro hne
        have : (bs.erase b).isEmpty = true := by simpa using hne
        simpa [List.isEmpty_iff] using this
      · simp only [trieDeleteAux, hc, if_false]
        exact Tidy.intro _ _ _ he h
  | cons c cs ih =>
    rintro ⟨ch, e, bs⟩ b hp
    cases hlk : lookupChild ch c with
    | none =>
      simp only [trieDeleteAux, hlk]
      exact hp
    | some child =>
      rcases hres : trieDeleteAux child cs b with ⟨n1, d1⟩
      have hn1p : Tidy n1 := by
        have := ih child b (tidy_mem hp (lookupChild_mem hlk))
        rwa [hres] at this
      by_cases hcond : (d1 && n1.children.isEmpty && !n1.is_end_of_word) = true
      · simp only [trieDeleteAux, hlk, hres, hcond, if_true]
        refine Tidy.intro _ _ _ (tidy_books hp) ?_
        intro c' t' hm
        exact tidy_mem hp (mem_dictRemove hm)
      · simp only [trieDeleteAux, hlk, hres, hcond, if_false]
        refine Tidy.intro _ _ _ (tidy_books hp) ?_
        intro c' t' hm
        rcases mem_dictSet hm with h' | h'
        · exact tidy_mem hp h'
        · cases h'; exact hn1p

/-- `Trie._delete` keeps children keys distinct. -/
theorem trieDeleteAux_keysDistinct (cs : List Char) :
    ∀ (n : TrieNode) (b : Book), KeysDistinct n →
      KeysDistinct ((trieDeleteAux n cs b).1) := by
  induction cs with
  | nil =>
    rintro ⟨ch, e, bs⟩ b hp
    cases hp with
    | intro _ _ _ hnd h =>
      by_cases hc : e = true ∧ b ∈ bs
      · simp only [trieDeleteAux, hc, if_true]
        exact KeysDistinct.intro _ _ _ hnd h
      · simp only [trieDeleteAux, hc, if_false]
        exact KeysDistinct.intro _ _ _ hnd h
  | cons c cs ih =>
    rintro ⟨ch, e, bs⟩ b hp
    cases hlk : lookupChild ch c with
    | none =>
      simp only [trieDeleteAux, hlk]
      exact hp
    | some child =>
      rcases hres : trieDeleteAux child cs b with ⟨n1, d1⟩
      have hn1p : KeysDistinct n1 := by
        have := ih child b (keysDistinct_mem hp (lookupChild_mem hlk))
        rwa [hres] at this
      by_cases hcond : (d1 && n1.children.isEmpty && !n1.is_end_of_word) = true
      · simp only [trieDeleteAux, hlk, hres, hcond, if_true]
        refine KeysDistinct.intro _ _ _ ?_ ?_
        · exact (keysDistinct_nodup hp).sublist (dictRemove_keys_sublist hlk)
        · intro c' t' hm
          exact keysDistinct_mem hp (mem_dictRemove hm)
      · simp only [trieDeleteAux, hlk, hres, hcond, if_false]
        refine KeysDistinct.intro _ _ _ ?_ ?_
        · rw [dictSet_keys_of_found hlk]
          exact keysDistinct_nodup hp
        · intro c' t' hm
          rcases mem_dictSet hm with h' | h'
          · exact keysDistinct_mem hp h'
          · cases h'; exact hn1p

theorem psAux_empty (p : List Char) : psAux TrieNode.emptyNode p = [] := by
  cases p with
  | nil => simp [psAux, findNode, TrieNode.emptyNode, collect, collectChildren]
  | cons c cs => simp [psAux, findNode, TrieNode.emptyNode, lookupChild]

theorem perm_snoc_append (bs cc : List Book) (b : Book) :
    ((bs ++ [b]) ++ cc).Perm (b :: (bs ++ cc)) := by
  have h1 : (bs ++ [b]) ++ cc = bs ++ b :: cc := by simp
  rw [h1]
  exact List.perm_middle

theorem perm_mid_append (P R : List Book) {X Y : List Book} (b : Book)
    (h : X.Perm (b :: Y)) : (P ++ (X ++ R)).Perm (b :: (P ++ (Y ++ R))) := by
  have h1 : (P ++ (X ++ R)).Perm (P ++ ((b :: Y) ++ R)) :=
    List.Perm.append_left P (h.append_right R)
  have h2 : P ++ ((b :: Y) ++ R) = P ++ b :: (Y ++ R) := by simp
  rw [h2] at h1
  exact h1.trans List.perm_middle

/-- Inserting a book adds exactly that book (as a multiset) to the collected
payloads of the subtree. -/
theorem collect_insert (cs : List Char) :
    ∀ (n : TrieNode) (b : Book), Tidy n →
      (collect (trieInsertAux n cs b)).Perm (b :: collect n) := by
  induction cs with
  | nil =>
    rintro ⟨ch, e, bs⟩ b hp
    cases e with
    | true =>
      simp only [trieInsertAux, collect]
      exact perm_snoc_append bs (collectChildren ch) b
    | false =>
      have hbs : bs = [] := tidy_books hp rfl
      subst hbs
      simp [trieInsertAux, collect]
  | cons c cs ih =>
    rintro ⟨ch, e, bs⟩ b hp
    cases hlk : lookupChild ch c with
    | some child =>
      obtain ⟨A, B, hch, _, hset, _⟩ := lookupChild_decomp hlk
      have hX := ih child b (tidy_mem hp (lookupChild_mem hlk))
      simp only [trieInsertAux, hlk, collect, hset]
      rw [collectChildren_append]
      conv_rhs => rw [hch]
      rw [collectChildren_append]
      simp only [collectChildren, collect]
      have e1 : (if e = true then bs else []) ++
          (collectChildren A ++ ((collect (trieInsertAux child cs b)) ++ collectChildren B)) =
          ((if e = true then bs else []) ++ collectChildren A) ++
          ((collect (trieInsertAux child cs b)) ++ collectChildren B) := by simp
      have e2 : (if e = true then bs else []) ++
          (collectChildren A ++ ((collect child) ++ collectChildren B)) =
          ((if e = true then bs else []) ++ collectChildren A) ++
          ((collect child) ++ collectChildren B) := by simp
      rw [e1, e2]
      exact perm_mid_append _ _ b hX
    | none =>
      have hY := ih TrieNode.emptyNode b tidy_empty
      have hYe : (collect (trieInsertAux TrieNode.emptyNode cs b)).Perm [b] := by
        simpa [TrieNode.emptyNode, collect, collectChildren] using hY
      simp only [trieInsertAux, hlk, collect]
      rw [collectChildren_append]
      simp only [collectChildren, collect]
      have e1 : (if e = true then bs else []) ++
          (collectChildren ch ++ ((collect (trieInsertAux TrieNode.emptyNode cs b)) ++ [])) =
          ((if e = true then bs else []) ++ collectChildren ch) ++
          ((collect (trieInsertAux TrieNode.emptyNode cs b)) ++ []) := by simp
      rw [e1]
      have : ((collect (trieInsertAux TrieNode.emptyNode cs b)) ++ []).Perm [b] := by
        simpa using hYe
      have h2 : (((if e = true then bs else []) ++ collectChildren ch) ++
          ((collect (trieInsertAux TrieNode.emptyNode cs b)) ++ [])).Perm
          (((if e = true then bs else []) ++ collectChildren ch) ++ [b]) :=
        List.Perm.append_left _ this
      exact h2.trans List.perm_append_comm

/-- Prefix search along a prefix of the inserted word sees exactly one new
copy of the book. -/
theorem psAux_insert_of_isPrefixOf (p : List Char) :
    ∀ (w : List Char) (n : TrieNode) (b : Book), Tidy n → p <+: w →
      (psAux (trieInsertAux n w b) p).Perm (b :: psAux n p) := by
  induction p with
  | nil =>
    intro w n b hp _
    have h1 : psAux (trieInsertAux n w b) [] = collect (trieInsertAux n w b) := by
      simp [psAux, findNode]
    have h2 : psAux n [] = collect n := by simp [psAux, findNode]
    rw [h1, h2]
    exact collect_insert w n b hp
  | cons c p' ih =>
    intro w n b hp hpre
    cases w with
    | nil => simp at hpre
    | cons cw w' =>
      rw [List.cons_prefix_cons] at hpre
      obtain ⟨hc, hpre'⟩ := hpre
      subst hc
      obtain ⟨ch, e, bs⟩ := n
      cases hlk : lookupChild ch c with
      | some child =>
        have hih := ih w' child b (tidy_mem hp (lookupChild_mem hlk)) hpre'
        simp only [trieInsertAux, hlk, psAux, findNode, lookupChild_dictSet_self]
        simpa [psAux, hlk] using hih
      | none =>
        have hih := ih w' TrieNode.emptyNode b tidy_empty hpre'
        rw [psAux_empty] at hih
        simp only [trieInsertAux, hlk, psAux, findNode,
          lookupChild_append_none hlk]
        simpa [psAux, hlk] using hih

/-- Prefix search along any other path is untouched by insertion. -/
theorem psAux_insert_of_not_isPrefixOf (p : List Char) :
    ∀ (w : List Char) (n : TrieNode) (b : Book), ¬ p <+: w →
      psAux (trieInsertAux n w b) p = psAux n p := by
  induction p with
  | nil => intro w n b hpre; exact absurd (List.nil_prefix) hpre
  | cons c p' ih =>
    intro w n b hpre
    obtain ⟨ch, e, bs⟩ := n
    cases w with
    | nil => simp [trieInsertAux, psAux, findNode]
    | cons cw w' =>
      by_cases hc : c = cw
      · subst hc
        have hpre' : ¬ p' <+: w' := by
          intro h'
          exact hpre (List.cons_prefix_cons.2 ⟨rfl, h'⟩)
        cases hlk : lookupChild ch c with
        | some child =>
          simp only [trieInsertAux, hlk, psAux, findNode, lookupChild_dictSet_self]
          have := ih w' child b hpre'
          simpa [psAux, hlk] using this
        | none =>
          simp only [trieInsertAux, hlk, psAux, findNode,
            lookupChild_append_none hlk]
          have := ih w' TrieNode.emptyNode b hpre'
          rw [psAux_empty] at this
          simpa [psAux, hlk] using this
      · cases hlk : lookupChild ch cw with
        | some child =>
          simp only [trieInsertAux, hlk, psAux, findNode,
            lookupChild_dictSet_other hc]
        | none =>
          simp only [trieInsertAux, hlk, psAux, findNode,
            lookupChild_append_other hc]

/-- After inserting, the whole-word node exists, is terminal, and ends with
the inserted book. -/
theorem findNode_insert_self (cs : List Char) :
    ∀ (n : TrieNode) (b : Book), ∃ ch2 bs2,
      findNode (trieInsertAux n cs b) cs = some (.mk ch2 true (bs2 ++ [b])) := by
  induction cs with
  | nil =>
    rintro ⟨ch, e, bs⟩ b
    exact ⟨ch, bs, by simp [trieInsertAux, findNode]⟩
  | cons c cs ih =>
    rintro ⟨ch, e, bs⟩ b
    cases hlk : lookupChild ch c with
    | some child =>
      obtain ⟨ch2, bs2, hih⟩ := ih child b
      exact ⟨ch2, bs2, by
        simp only [trieInsertAux, hlk, findNode, lookupChild_dictSet_self, hih]⟩
    | none =>
      obtain ⟨ch2, bs2, hih⟩ := ih TrieNode.emptyNode b
      exact ⟨ch2, bs2, by
        simp only [trieInsertAux, hlk, findNode, lookupChild_append_none hlk, hih]⟩

/-- Scenario D as an equation: inserting a word into the empty trie and
deleting it again gives back the empty root (all fresh nodes pruned) and
reports success. -/
theorem trie_roundtrip_empty (cs : List Char) (b : Book) :
    trieDeleteAux (trieInsertAux TrieNode.emptyNode cs b) cs b =
      (TrieNode.emptyNode, true) := by
  induction cs with
  | nil =>
    simp [trieInsertAux, trieDeleteAux, TrieNode.emptyNode, List.erase]
  | cons c cs ih =>
    have hlk : lookupChild ([] : List (Char × TrieNode)) c = none := rfl
    have h1 : trieInsertAux TrieNode.emptyNode (c :: cs) b =
        .mk [(c, trieInsertAux TrieNode.emptyNode cs b)] false [] := by
      simp [TrieNode.emptyNode, trieInsertAux, hlk]
    rw [h1]
    have hlk2 : lookupChild [(c, trieInsertAux TrieNode.emptyNode cs b)] c
        = some (trieInsertAux TrieNode.emptyNode cs b) := by simp [lookupChild]
    simp only [trieDeleteAux, hlk2, ih]
    simp [TrieNode.children, TrieNode.is_end_of_word, dictRemove, TrieNode.emptyNode]

theorem psAux_of_bare {n : TrieNode} (hch : n.children = [])
    (he : n.is_end_of_word = false) : ∀ p, psAux n p = [] := by
  obtain ⟨ch, e, bs⟩ := n
  simp only [TrieNode.children] at hch
  simp only [TrieNode.is_end_of_word] at he
  subst hch he
  intro p
  cases p with
  | nil => simp [psAux, findNode, collect, collectChildren]
  | cons c cs => simp [psAux, findNode, lookupChild]

/-- A successful delete removes exactly one copy of the book (as a multiset)
from the collected payloads. -/
theorem collect_delete (w : List Char) :
    ∀ (n : TrieNode) (b : Book), (trieDeleteAux n w b).2 = true →
      (collect n).Perm (b :: collect ((trieDeleteAux n w b).1)) := by
  induction w with
  | nil =>
    rintro ⟨ch, e, bs⟩ b hs
    by_cases hc : e = true ∧ b ∈ bs
    · simp only [trieDeleteAux, hc, if_true, collect, hc.1, if_true]
      by_cases hbe : (bs.erase b).isEmpty = true
      · have hbs : bs.erase b = [] := by simpa [List.isEmpty_iff] using hbe
        have hperm : bs.Perm (b :: bs.erase b) := List.perm_cons_erase hc.2
        rw [hbs] at hperm
        simp only [hbs, hbe]
        have h1 : (if (!true : Bool) = true then ([] : List Book) else []) = [] := by simp
        simp only [List.isEmpty_nil]
        refine List.Perm.append_right _ hperm |>.trans ?_
        simp
      · have hperm : bs.Perm (b :: bs.erase b) := List.perm_cons_erase hc.2
        have hne : (!(bs.erase b).isEmpty) = true := by simp [hbe]
        simp only [hne, if_true]
        exact (hperm.append_right _).trans (by simp)
    · simp only [trieDeleteAux, hc, if_false] at hs
      simp at hs
  | cons c w' ih =>
    rintro ⟨ch, e, bs⟩ b hs
    cases hlk : lookupChild ch c with
    | none => simp [trieDeleteAux, hlk] at hs
    | some child =>
      rcases hres : trieDeleteAux child w' b with ⟨n1, d1⟩
      have hd1 : d1 = true := by
        by_cases hcond : (d1 && n1.children.isEmpty && !n1.is_end_of_word) = true <;>
          · simp only [trieDeleteAux, hlk, hres, hcond, if_true, if_false] at hs
            simpa using hs
      subst hd1
      have hihc : (collect child).Perm (b :: collect n1) := by
        have := ih child b
        rw [hres] at this
        exact this rfl
      obtain ⟨A, B, hch, _, hset, hrem⟩ := lookupChild_decomp hlk
      have hlhs : collect (TrieNode.mk ch e bs) =
          ((if e = true then bs else []) ++ collectChildren A) ++
            (collect child ++ collectChildren B) := by
        rw [hch]
        simp [collect, collectChildren_append, collectChildren]
      by_cases hcond : (true && n1.children.isEmpty && !n1.is_end_of_word) = true
      · -- pruned: the child collapsed to a bare node, which collects nothing
        have hout : (trieDeleteAux (TrieNode.mk ch e bs) (c :: w') b).1 =
            TrieNode.mk (dictRemove ch c) e bs := by
          simp only [trieDeleteAux, hlk, hres, hcond, if_true]
        rw [hout, hlhs]
        obtain ⟨ch1, e1, bs1⟩ := n1
        simp only [TrieNode.children, TrieNode.is_end_of_word, Bool.true_and,
          Bool.and_eq_true, List.isEmpty_iff, Bool.not_eq_true'] at hcond
        obtain ⟨hch1, he1⟩ := hcond
        subst hch1
        have hcn1 : collect (TrieNode.mk [] e1 bs1) = [] := by
          simp [collect, collectChildren, he1]
        rw [hcn1] at hihc
        have hrhs : collect (TrieNode.mk (dictRemove ch c) e bs) =
            ((if e = true then bs else []) ++ collectChildren A) ++
              ([] ++ collectChildren B) := by
          rw [hrem]
          simp [collect, collectChildren_append]
        rw [hrhs]
        exact perm_mid_append _ _ b hihc
      · -- kept: the child is replaced in place
        have hout : (trieDeleteAux (TrieNode.mk ch e bs) (c :: w') b).1 =
            TrieNode.mk (dictSet ch c n1) e bs := by
          simp only [trieDeleteAux, hlk, hres, hcond, if_false]
          simp
        rw [hout, hlhs]
        have hrhs : collect (TrieNode.mk (dictSet ch c n1) e bs) =
            ((if e = true then bs else []) ++ collectChildren A) ++
              (collect n1 ++ collectChildren B) := by
          rw [hset n1]
          simp [collect, collectChildren_append, collectChildren]
        rw [hrhs]
        exact perm_mid_append _ _ b hihc

theorem psAux_cons (ch : List (Char × TrieNode)) (e : Bool) (bs : List Book)
    (c : Char) (p : List Char) :
    psAux (.mk ch e bs) (c :: p) =
      (match lookupChild ch c with
       | some u => psAux u p
       | none => []) := by
  cases hlk : lookupChild ch c <;> simp [psAux, findNode, hlk]

theorem lookupChild_dictRemove_self {ch : List (Char × TrieNode)} {c}
    (hnd : (ch.map Prod.fst).Nodup) : lookupChild (dictRemove ch c) c = none := by
  cases hlk : lookupChild ch c with
  | none =>
    cases h2 : lookupChild (dictRemove ch c) c with
    | none => rfl
    | some t =>
      have hmem := mem_dictRemove (lookupChild_mem h2)
      have hc : c ∈ ch.map Prod.fst := List.mem_map.2 ⟨(c, t), hmem, rfl⟩
      exact absurd hc (lookupChild_none_not_mem hlk)
  | some child =>
    obtain ⟨A, B, hch, hA, _, hrem⟩ := lookupChild_decomp hlk
    rw [hrem]
    subst hch
    simp only [List.map_append, List.map_cons] at hnd
    rcases List.nodup_append.1 hnd with ⟨_, h2, _⟩
    have hcB : c ∉ B.map Prod.fst := (List.nodup_cons.1 h2).1
    cases h3 : lookupChild (A ++ B) c with
    | none => rfl
    | some t =>
      rcases List.mem_append.1 (lookupChild_mem h3) with h' | h'
      · exact absurd (List.mem_map.2 ⟨(c, t), h', rfl⟩) (lookupChild_none_not_mem hA)
      · exact absurd (List.mem_map.2 ⟨(c, t), h', rfl⟩) hcB

/-- Prefix search along a prefix of a successfully deleted word loses exactly
one copy of the book. -/
theorem psAux_delete_of_isPrefixOf (p : List Char) :
    ∀ (w : List Char) (n : TrieNode) (b : Book), KeysDistinct n →
      (trieDeleteAux n w b).2 = true → p <+: w →
      (psAux n p).Perm (b :: psAux ((trieDeleteAux n w b).1) p) := by
  induction p with
  | nil =>
    intro w n b _ hs _
    have h1 : psAux n [] = collect n := by simp [psAux, findNode]
    have h2 : psAux ((trieDeleteAux n w b).1) [] =
        collect ((trieDeleteAux n w b).1) := by simp [psAux, findNode]
    rw [h1, h2]
    exact collect_delete w n b hs
  | cons c p' ih =>
    intro w n b hk hs hpre
    cases w with
    | nil => simp at hpre
    | cons cw w' =>
      rw [List.cons_prefix_cons] at hpre
      obtain ⟨hc, hpre'⟩ := hpre
      subst hc
      obtain ⟨ch, e, bs⟩ := n
      cases hlk : lookupChild ch c with
      | none => simp [trieDeleteAux, hlk] at hs
      | some child =>
        rcases hres : trieDeleteAux child w' b with ⟨n1, d1⟩
        have hd1 : d1 = true := by
          by_cases hcond : (d1 && n1.children.isEmpty && !n1.is_end_of_word) = true <;>
            · simp only [trieDeleteAux, hlk, hres, hcond, if_true, if_false] at hs
              simpa using hs
        subst hd1
        have hkc : KeysDistinct child := keysDistinct_mem hk (lookupChild_mem hlk)
        have hih : (psAux child p').Perm (b :: psAux n1 p') := by
          have h0 := ih w' child b hkc
          rw [hres] at h0
          exact h0 rfl hpre'
        have hlhs : psAux (TrieNode.mk ch e bs) (c :: p') = psAux child p' := by
          simp [psAux_cons, hlk]
        rw [hlhs]
        by_cases hcond : (true && n1.children.isEmpty && !n1.is_end_of_word) = true
        · have hout : (trieDeleteAux (TrieNode.mk ch e bs) (c :: w') b).1 =
              TrieNode.mk (dictRemove ch c) e bs := by
            simp only [trieDeleteAux, hlk, hres, hcond, if_true]
          rw [hout]
          simp only [Bool.true_and, Bool.and_eq_true, List.isEmpty_iff,
            Bool.not_eq_true'] at hcond
          have hbare : psAux n1 p' = [] := psAux_of_bare hcond.1 hcond.2 p'
          rw [hbare] at hih
          have hrhs : psAux (TrieNode.mk (dictRemove ch c) e bs) (c :: p') = [] := by
            simp [psAux_cons, lookupChild_dictRemove_self (keysDistinct_nodup hk)]
          rw [hrhs]
          exact hih
        · have hout : (trieDeleteAux (TrieNode.mk ch e bs) (c :: w') b).1 =
              TrieNode.mk (dictSet ch c n1) e bs := by
            simp only [trieDeleteAux, hlk, hres, hcond, if_false]
            simp
          rw [hout]
          have hrhs : psAux (TrieNode.mk (dictSet ch c n1) e bs) (c :: p') =
              psAux n1 p' := by
            simp [psAux_cons, lookupChild_dictSet_self]
          rw [hrhs]
          exact hih

/-- Prefix search along any other path is untouched by a successful delete. -/
theorem psAux_delete_of_not_isPrefixOf (p : List Char) :
    ∀ (w : List Char) (n : TrieNode) (b : Book), KeysDistinct n →
      (trieDeleteAux n w b).2 = true → ¬ p <+: w →
      psAux ((trieDeleteAux n w b).1) p = psAux n p := by
  induction p with
  | nil => intro w n b _ _ hpre; exact absurd List.nil_prefix hpre
  | cons c p' ih =>
    intro w n b hk hs hpre
    obtain ⟨ch, e, bs⟩ := n
    cases w with
    | nil =>
      by_cases hc : e = true ∧ b ∈ bs
      · simp only [trieDeleteAux, hc, if_true]
        simp [psAux_cons]
      · simp only [trieDeleteAux, hc, if_false]
    | cons cw w' =>
      cases hlk : lookupChild ch cw with
      | none => simp [trieDeleteAux, hlk] at hs
      | some child =>
        rcases hres : trieDeleteAux child w' b with ⟨n1, d1⟩
        have hd1 : d1 = true := by
          by_cases hcond : (d1 && n1.children.isEmpty && !n1.is_end_of_word) = true <;>
            · simp only [trieDeleteAux, hlk, hres, hcond, if_true, if_false] at hs
              simpa using hs
        subst hd1
        by_cases hc : c = cw
        · subst hc
          have hpre' : ¬ p' <+: w' := by
            intro h'
            exact hpre (List.cons_prefix_cons.2 ⟨rfl, h'⟩)
          have hkc : KeysDistinct child := keysDistinct_mem hk (lookupChild_mem hlk)
          have hih : psAux n1 p' = psAux child p' := by
            have h0 := ih w' child b hkc
            rw [hres] at h0
            exact h0 rfl hpre'
          have hlhs : psAux (TrieNode.mk ch e bs) (c :: p') = psAux child p' := by
            simp [psAux_cons, hlk]
          rw [hlhs]
          by_cases hcond : (true && n1.children.isEmpty && !n1.is_end_of_word) = true
          · have hout : (trieDeleteAux (TrieNode.mk ch e bs) (c :: w') b).1 =
                TrieNode.mk (dictRemove ch c) e bs := by
              simp only [trieDeleteAux, hlk, hres, hcond, if_true]
            rw [hout]
            simp only [Bool.true_and, Bool.and_eq_true, List.isEmpty_iff,
              Bool.not_eq_true'] at hcond
            have hbare : psAux n1 p' = [] := psAux_of_bare hcond.1 hcond.2 p'
            have hrhs : psAux (TrieNode.mk (dictRemove ch c) e bs) (c :: p') = [] := by
              simp [psAux_cons, lookupChild_dictRemove_self (keysDistinct_nodup hk)]
            rw [hrhs, ← hih, hbare]
          · have hout : (trieDeleteAux (TrieNode.mk ch e bs) (c :: w') b).1 =
                TrieNode.mk (dictSet ch c n1) e bs := by
              simp only [trieDeleteAux, hlk, hres, hcond, if_false]
              simp
            rw [hout]
            have hrhs : psAux (TrieNode.mk (dictSet ch c n1) e bs) (c :: p') =
                psAux n1 p' := by
              simp [psAux_cons, lookupChild_dictSet_self]
            rw [hrhs, hih]
        · have hlhs : psAux (TrieNode.mk ch e bs) (c :: p') =
              (match lookupChild ch c with
               | some u => psAux u p'
               | none => []) := psAux_cons ch e bs c p'
          by_cases hcond : (true && n1.children.isEmpty && !n1.is_end_of_word) = true
          · have hout : (trieDeleteAux (TrieNode.mk ch e bs) (cw :: w') b).1 =
                TrieNode.mk (dictRemove ch cw) e bs := by
              simp only [trieDeleteAux, hlk, hres, hcond, if_true]
            rw [hout]
            rw [psAux_cons, lookupChild_dictRemove_other hc, hlhs]
          · have hout : (trieDeleteAux (TrieNode.mk ch e bs) (cw :: w') b).1 =
                TrieNode.mk (dictSet ch cw n1) e bs := by
              simp only [trieDeleteAux, hlk, hres, hcond, if_false]
              simp
            rw [hout]
            rw [psAux_cons, lookupChild_dictSet_other hc, hlhs]

theorem findNode_bare (e : Bool) (bs : List Book) (c : Char) (cs : List Char) :
    findNode (.mk [] e bs) (c :: cs) = none := by
  simp [findNode, lookupChild]

/-- What a successful `Trie._delete` does at the word's node: one occurrence
of the book is erased from the payload list, the terminal flag is cleared
exactly when the list empties, and the node itself disappears exactly when it
additionally has no children (and is not the root). -/
theorem trieDeleteAux_found (cs : List Char) :
    ∀ (n : TrieNode) (b : Book) (m : TrieNode), KeysDistinct n →
      findNode n cs = some m → m.is_end_of_word = true → b ∈ m.books →
      findNode ((trieDeleteAux n cs b).1) cs =
        (if cs ≠ [] ∧ (m.books.erase b).isEmpty = true ∧ m.children.isEmpty = true
         then none
         else some (.mk m.children (!(m.books.erase b).isEmpty) (m.books.erase b))) := by
  induction cs with
  | nil =>
    rintro ⟨ch, e, bs⟩ b m _ hfind hend hmem
    have hm : m = TrieNode.mk ch e bs := by
      simpa [findNode] using hfind.symm
    subst hm
    simp only [TrieNode.is_end_of_word] at hend
    simp only [TrieNode.books] at hmem
    subst hend
    simp [trieDeleteAux, hmem, findNode, TrieNode.children, TrieNode.books]
  | cons c cs' ih =>
    rintro ⟨ch, e, bs⟩ b m hk hfind hend hmem
    cases hlk : lookupChild ch c with
    | none => simp [findNode, hlk] at hfind
    | some child =>
      have hfind' : findNode child cs' = some m := by
        simpa [findNode, hlk] using hfind
      have hkc : KeysDistinct child := keysDistinct_mem hk (lookupChild_mem hlk)
      have hsucc : (trieDeleteAux child cs' b).2 = true :=
        (trieDeleteAux_true_iff cs' child b).2 ⟨m, hfind', hend, hmem⟩
      rcases hres : trieDeleteAux child cs' b with ⟨n1, d1⟩
      rw [hres] at hsucc
      have hd1 : d1 = true := hsucc
      subst hd1
      have hih : findNode n1 cs' =
          (if cs' ≠ [] ∧ (m.books.erase b).isEmpty = true ∧ m.children.isEmpty = true
           then none
           else some (.mk m.children (!(m.books.erase b).isEmpty) (m.books.erase b))) := by
        have h0 := ih child b m hkc hfind' hend hmem
        rwa [hres] at h0
      -- when the recursion ends right at the word's node, compute it directly
      have hbase : cs' = [] →
          n1 = TrieNode.mk m.children (!(m.books.erase b).isEmpty) (m.books.erase b) := by
        intro hnilcs
        subst hnilcs
        have hm : m = child := by simpa [findNode] using hfind'.symm
        subst hm
        obtain ⟨mch, me, mbs⟩ := m
        simp only [TrieNode.is_end_of_word] at hend
        simp only [TrieNode.books] at hmem
        subst hend
        have hcomp : trieDeleteAux (TrieNode.mk mch true mbs) [] b =
            (TrieNode.mk mch (!(mbs.erase b).isEmpty) (mbs.erase b), true) := by
          simp [trieDeleteAux, hmem]
        rw [hcomp] at hres
        simpa [TrieNode.children, TrieNode.books] using
          ((Prod.mk.injEq _ _ _ _ ▸ hres).1).symm
      by_cases hcond : (true && n1.children.isEmpty && !n1.is_end_of_word) = true
      · -- the child was pruned
        have hout : (trieDeleteAux (TrieNode.mk ch e bs) (c :: cs') b).1 =
            TrieNode.mk (dictRemove ch c) e bs := by
          simp only [trieDeleteAux, hlk, hres, hcond, if_true]
        rw [hout]
        simp only [Bool.true_and, Bool.and_eq_true, Bool.not_eq_true'] at hcond
        have hEC : (m.books.erase b).isEmpty = true ∧ m.children.isEmpty = true := by
          cases hcs' : cs' with
          | nil =>
            have hn1 := hbase hcs'
            rw [hn1] at hcond
            simp only [TrieNode.children, TrieNode.is_end_of_word] at hcond
            refine ⟨by simpa using hcond.2, hcond.1⟩
          | cons c2 cs2 =>
            subst hcs'
            by_contra hne
            rw [if_neg (by rintro ⟨_, h1, h2⟩; exact hne ⟨h1, h2⟩)] at hih
            obtain ⟨nch, nn, nbs⟩ := n1
            simp only [TrieNode.children, List.isEmpty_iff] at hcond
            rw [hcond.1] at hih
            rw [findNode_bare] at hih
            exact Option.noConfusion hih
        rw [if_pos ⟨by simp, hEC.1, hEC.2⟩]
        have hrm : lookupChild (dictRemove ch c) c = none :=
          lookupChild_dictRemove_self (keysDistinct_nodup hk)
        simp [findNode, hrm]
      · -- the child was kept (replaced in place)
        have hout : (trieDeleteAux (TrieNode.mk ch e bs) (c :: cs') b).1 =
            TrieNode.mk (dictSet ch c n1) e bs := by
          simp only [trieDeleteAux, hlk, hres, hcond, if_false]
          simp
        rw [hout]
        have hlhs : findNode (TrieNode.mk (dictSet ch c n1) e bs) (c :: cs') =
            findNode n1 cs' := by
          simp [findNode, lookupChild_dictSet_self]
        rw [hlhs, hih]
        cases hcs' : cs' with
        | nil =>
          -- at the word's node itself: kept means the prune condition failed
          have hn1 := hbase hcs'
          rw [hn1] at hcond
          simp only [TrieNode.children, TrieNode.is_end_of_word, Bool.true_and,
            Bool.and_eq_true, Bool.not_eq_true'] at hcond
          have hnEC : ¬ ((m.books.erase b).isEmpty = true ∧ m.children.isEmpty = true) := by
            intro hEC
            exact hcond ⟨hEC.2, by simp [hEC.1]⟩
          subst hcs'
          rw [if_neg (by simp), if_neg (by rintro ⟨_, h1, h2⟩; exact hnEC ⟨h1, h2⟩)]
        | cons c2 cs2 =>
          subst hcs'
          simp only [ne_eq, List.cons_ne_nil, not_false_eq_true, true_and]

/-! ## Hash table lemmas -/

namespace HashTable

theorem replaceFirst_none_iff {l : List Book} {k : String} {v : Book} :
    replaceFirst l k v = none ↔ ∀ b ∈ l, b.isbn ≠ k := by
  induction l with
  | nil => simp [replaceFirst]
  | cons b t ih =>
    by_cases hb : b.isbn = k
    · simp [replaceFirst, hb]
    · simp [replaceFirst, hb, ih]

/-- In-place overwrite: same chain length, the key now maps to the new book,
other keys see the same first match. -/
theorem replaceFirst_spec {l nb : List Book} {k : String} {v : Book}
    (hv : v.isbn = k) (h : replaceFirst l k v = some nb) :
    nb.length = l.length ∧ nb.find? (fun b => b.isbn = k) = some v ∧
      ∀ k', k' ≠ k → nb.find? (fun b => b.isbn = k') = l.find? (fun b => b.isbn = k') := by
  induction l generalizing nb with
  | nil => simp [replaceFirst] at h
  | cons b t ih =>
    by_cases hb : b.isbn = k
    · simp only [replaceFirst, hb, if_true, Option.some.injEq] at h
      subst h
      refine ⟨by simp, by rw [List.find?_cons_of_pos _ (by simpa using hv)], ?_⟩
      intro k' hk'
      have hv' : ¬ v.isbn = k' := by rw [hv]; exact fun he => hk' he.symm
      have hb' : ¬ b.isbn = k' := by rw [hb]; exact fun he => hk' he.symm
      rw [List.find?_cons_of_neg _ (by simpa using hv'),
        List.find?_cons_of_neg _ (by simpa using hb')]
    · simp only [replaceFirst, hb, if_false] at h
      cases hrf : replaceFirst t k v with
      | none => rw [hrf] at h; simp at h
      | some nt =>
        rw [hrf] at h
        simp only [Option.map_some', Option.some.injEq] at h
        subst h
        obtain ⟨h1, h2, h3⟩ := ih hrf
        refine ⟨by simp [h1],
          by rw [List.find?_cons_of_neg _ (by simpa using hb)]; exact h2, ?_⟩
        intro k' hk'
        by_cases hb' : b.isbn = k'
        · rw [List.find?_cons_of_pos _ (by simpa using hb'),
            List.find?_cons_of_pos _ (by simpa using hb')]
        · rw [List.find?_cons_of_neg _ (by simpa using hb'),
            List.find?_cons_of_neg _ (by simpa using hb')]
          exact h3 k' hk'

theorem find?_append_left_none {l1 l2 : List Book} {p : Book → Bool}
    (h : l1.find? p = none) : (l1 ++ l2).find? p = l2.find? p := by
  induction l1 with
  | nil => simp
  | cons b t ih =>
    have hpb : ¬ p b := by
      intro hpb
      simp [List.find?_cons_of_pos _ hpb] at h
    rw [List.find?_cons_of_neg _ hpb] at h
    rw [List.cons_append, List.find?_cons_of_neg _ hpb]
    exact ih h

theorem find?_none_of_all {l : List Book} {k : String}
    (h : ∀ b ∈ l, b.isbn ≠ k) : l.find? (fun b => b.isbn = k) = none := by
  induction l with
  | nil => simp
  | cons b t ih =>
    rw [List.find?_cons_of_neg _ (by simpa using h b (by simp))]
    exact ih (fun x hx => h x (by simp [hx]))

theorem find?_append_single_no_match {l : List Book} {v : Book} {p : Book → Bool}
    (h : ¬ p v) : (l ++ [v]).find? p = l.find? p := by
  induction l with
  | nil => simp [List.find?_cons_of_neg _ h]
  | cons b t ih =>
    by_cases hpb : p b
    · rw [List.cons_append, List.find?_cons_of_pos _ hpb, List.find?_cons_of_pos _ hpb]
    · rw [List.cons_append, List.find?_cons_of_neg _ hpb, List.find?_cons_of_neg _ hpb]
      exact ih

/-- The first chain match for a key distinct from an erased key is unchanged
(`delete` only removes an entry whose `isbn` is the deleted key). -/
theorem find?_eraseFirst_other {l : List Book} {k k' : String} (hk : k' ≠ k) :
    (eraseFirst l k).find? (fun b => b.isbn = k') = l.find? (fun b => b.isbn = k') := by
  induction l with
  | nil => simp [eraseFirst]
  | cons b t ih =>
    by_cases hb : b.isbn = k
    · have hb' : ¬ b.isbn = k' := by rw [hb]; exact fun he => hk he.symm
      simp only [eraseFirst, hb, if_true]
      rw [List.find?_cons_of_neg _ (by simpa using hb')]
    · simp only [eraseFirst, hb, if_false]
      by_cases hb' : b.isbn = k'
      · rw [List.find?_cons_of_pos _ (by simpa using hb'),
          List.find?_cons_of_pos _ (by simpa using hb')]
      · rw [List.find?_cons_of_neg _ (by simpa using hb'),
          List.find?_cons_of_neg _ (by simpa using hb')]
        exact ih

/-- Reading any key from a table with one bucket rewritten. -/
theorem get_update (ht : HashTable) (i : Nat) (nb : List Book) (k' : String) :
    (HashTable.mk ht.size (fun j => if j = i then nb else ht.buckets j)).get k' =
      (if ht.hashOf k' = i then nb.find? (fun b => b.isbn = k') else ht.get k') := by
  unfold get hashOf
  by_cases hj : (k'.data.map Char.toNat).sum % ht.size = i <;> simp [hj]

/-- A freshly inserted record is retrievable by its key (the key being its
`isbn`, as every caller passes). -/
theorem get_insert_self (ht : HashTable) (k : String) (v : Book)
    (hv : v.isbn = k) : ((ht.insert k v).1).get k = some v := by
  cases hrf : replaceFirst (ht.buckets (ht.hashOf k)) k v with
  | some nb =>
    simp only [insert, hrf]
    rw [get_update, if_pos rfl]
    exact (replaceFirst_spec hv hrf).2.1
  | none =>
    simp only [insert, hrf]
    rw [get_update, if_pos rfl]
    rw [find?_append_left_none (find?_none_of_all (replaceFirst_none_iff.1 hrf))]
    rw [List.find?_cons_of_pos _ (by simpa using hv)]

/-- Inserting one record does not disturb retrieval of any other key. -/
theorem get_insert_other (ht : HashTable) (k k' : String) (v : Book)
    (hv : v.isbn = k) (hk : k' ≠ k) :
    ((ht.insert k v).1).get k' = ht.get k' := by
  have hv' : ¬ v.isbn = k' := by rw [hv]; exact fun he => hk he.symm
  cases hrf : replaceFirst (ht.buckets (ht.hashOf k)) k v with
  | some nb =>
    simp only [insert, hrf]
    rw [get_update]
    by_cases hj : ht.hashOf k' = ht.hashOf k
    · rw [if_pos hj, (replaceFirst_spec hv hrf).2.2 k' hk]
      unfold get
      rw [hj]
    · rw [if_neg hj]
  | none =>
    simp only [insert, hrf]
    rw [get_update]
    by_cases hj : ht.hashOf k' = ht.hashOf k
    · rw [if_pos hj, find?_append_single_no_match (by simpa using hv')]
      unfold get
      rw [hj]
    · rw [if_neg hj]

/-- Deleting one key does not disturb retrieval of any other key. -/
theorem get_delete_other (ht : HashTable) (k k' : String) (hk : k' ≠ k) :
    (ht.delete k).get k' = ht.get k' := by
  show (HashTable.mk ht.size _).get k' = ht.get k'
  rw [get_update]
  by_cases hj : ht.hashOf k' = ht.hashOf k
  · rw [if_pos hj, find?_eraseFirst_other hk]
    unfold get
    rw [hj]
  · rw [if_neg hj]

end HashTable

/-! ## Ordered-index lemmas

The tree is verified against a sorted-association-list model: `inorderKV`
of a tree maps insert/delete/search to `listInsert`/`listEraseKey`/`lookupKey`
on the model. -/

namespace AVLTree

variable {β : Type}


theorem inorder_eq_map_snd (t : AVLTree β) :
    inorder_traversal t = (inorderKV t).map Prod.snd := by
  induction t with
  | nil => rfl
  | node k v l r h ihl ihr => simp [inorder_traversal, inorderKV, ihl, ihr]

theorem forK_iff {p : String → Prop} (t : AVLTree β) :
    ForK p t ↔ ∀ q ∈ inorderKV t, p q.1 := by
  induction t with
  | nil => simp [ForK, inorderKV]
  | node k v l r h ihl ihr =>
    simp only [ForK, inorderKV, List.mem_append, List.mem_cons]
    constructor
    · rintro ⟨hk, hl, hr⟩ q hq
      rcases hq with hq | hq | hq
      · exact (ihl.1 hl) q hq
      · rw [hq]; exact hk
      · exact (ihr.1 hr) q hq
    · intro hq
      refine ⟨hq (k, v) (Or.inr (Or.inl rfl)), ihl.2 ?_, ihr.2 ?_⟩
      · intro q hq'; exact hq q (Or.inl hq')
      · intro q hq'; exact hq q (Or.inr (Or.inr hq'))

theorem inorderKV_right_rotate (t : AVLTree β) :
    inorderKV (right_rotate t) = inorderKV t := by
  cases t with
  | nil => rfl
  | node ky vy l r h =>
    cases l with
    | nil => rfl
    | node kx vx a t2 h2 => simp [right_rotate, inorderKV]

theorem inorderKV_left_rotate (t : AVLTree β) :
    inorderKV (left_rotate t) = inorderKV t := by
  cases t with
  | nil => rfl
  | node kx vx l r h =>
    cases r with
    | nil => rfl
    | node ky vy t2 b h2 => simp [left_rotate, inorderKV]

theorem inorderKV_insRebalance (t : AVLTree β) (k : String) :
    inorderKV (insRebalance t k) = inorderKV t := by
  cases t with
  | nil => rfl
  | node nk nv l r h =>
    simp only [insRebalance]
    repeat' split
    all_goals simp [inorderKV_right_rotate, inorderKV_left_rotate, inorderKV]

theorem inorderKV_delRebalance (nk : String) (nv : β) (l r : AVLTree β) (h : Nat) :
    inorderKV (delRebalance (node nk nv l r h)) = inorderKV (node nk nv l r h) := by
  simp only [delRebalance]
  repeat' split
  all_goals simp [inorderKV_right_rotate, inorderKV_left_rotate, inorderKV]

theorem listInsert_append_left {k : String} {v : β} {nk : String} {nv : β}
    (R : List (String × β)) (hk : k < nk) :
    ∀ L, listInsert k v (L ++ (nk, nv) :: R) = listInsert k v L ++ (nk, nv) :: R := by
  intro L
  induction L with
  | nil => simp [listInsert, hk]
  | cons q t ih =>
    obtain ⟨k1, v1⟩ := q
    by_cases h1 : k < k1
    · simp [listInsert, h1]
    · by_cases h2 : k1 < k
      · simp [listInsert, h1, h2, ih]
      · simp [listInsert, h1, h2]

theorem listInsert_append_right {k : String} {v : β} {nk : String} {nv : β}
    (R : List (String × β)) (hk : nk < k) :
    ∀ L, (∀ q ∈ L, q.1 < k) →
      listInsert k v (L ++ (nk, nv) :: R) = L ++ (nk, nv) :: listInsert k v R := by
  intro L
  induction L with
  | nil =>
    intro _
    have h1 : ¬ k < nk := by
      intro h'
      exact absurd (h'.trans hk) (lt_irrefl k)
    simp [listInsert, h1, hk]
  | cons q t ih =>
    obtain ⟨k1, v1⟩ := q
    intro hall
    have hk1 : k1 < k := hall (k1, v1) (by simp)
    have h1 : ¬ k < k1 := fun h' => absurd (h'.trans hk1) (lt_irrefl k)
    simp only [List.cons_append, listInsert, h1, if_false, hk1, if_true, List.append_eq]
    rw [ih (fun q hq => hall q (by simp [hq]))]

theorem listInsert_append_eq {k : String} {v nv : β} (R : List (String × β)) :
    ∀ L, (∀ q ∈ L, q.1 < k) →
      listInsert k v (L ++ (k, nv) :: R) = L ++ (k, v) :: R := by
  intro L
  induction L with
  | nil =>
    intro _
    simp [listInsert, lt_irrefl]
  | cons q t ih =>
    obtain ⟨k1, v1⟩ := q
    intro hall
    have hk1 : k1 < k := hall (k1, v1) (by simp)
    have h1 : ¬ k < k1 := fun h' => absurd (h'.trans hk1) (lt_irrefl k)
    simp only [List.cons_append, listInsert, h1, if_false, hk1, if_true, List.append_eq]
    rw [ih (fun q hq => hall q (by simp [hq]))]

theorem listEraseKey_of_not_mem {k : String} :
    ∀ M : List (String × β), (∀ q ∈ M, q.1 ≠ k) → listEraseKey k M = M := by
  intro M
  induction M with
  | nil => intro _; rfl
  | cons q t ih =>
    obtain ⟨k1, v1⟩ := q
    intro hall
    have h1 : k1 ≠ k := hall (k1, v1) (by simp)
    simp [listEraseKey, h1, ih (fun q hq => hall q (by simp [hq]))]

theorem listEraseKey_append_left {k : String} {M : List (String × β)}
    (hM : ∀ q ∈ M, q.1 ≠ k) :
    ∀ L, listEraseKey k (L ++ M) = listEraseKey k L ++ M := by
  intro L
  induction L with
  | nil => simp [listEraseKey, listEraseKey_of_not_mem M hM]
  | cons q t ih =>
    obtain ⟨k1, v1⟩ := q
    by_cases h1 : k1 = k
    · simp [listEraseKey, h1]
    · simp [listEraseKey, h1, ih]

theorem listEraseKey_append_right {k : String} :
    ∀ L : List (String × β), (∀ q ∈ L, q.1 ≠ k) →
      ∀ M, listEraseKey k (L ++ M) = L ++ listEraseKey k M := by
  intro L
  induction L with
  | nil => intro _ M; rfl
  | cons q t ih =>
    obtain ⟨k1, v1⟩ := q
    intro hall M
    have h1 : k1 ≠ k := hall (k1, v1) (by simp)
    simp [listEraseKey, h1, ih (fun q hq => hall q (by simp [hq]))]

theorem listEraseKey_append_found {k : String} {nv : β} (R : List (String × β)) :
    ∀ L, (∀ q ∈ L, q.1 ≠ k) → listEraseKey k (L ++ (k, nv) :: R) = L ++ R := by
  intro L
  induction L with
  | nil => intro _; simp [listEraseKey]
  | cons q t ih =>
    obtain ⟨k1, v1⟩ := q
    intro hall
    have h1 : k1 ≠ k := hall (k1, v1) (by simp)
    simp [listEraseKey, h1, ih (fun q hq => hall q (by simp [hq]))]

theorem lookupKey_append_right {k : String} :
    ∀ L : List (String × β), (∀ q ∈ L, q.1 ≠ k) →
      ∀ M, lookupKey k (L ++ M) = lookupKey k M := by
  intro L
  induction L with
  | nil => intro _ M; rfl
  | cons q t ih =>
    obtain ⟨k1, v1⟩ := q
    intro hall M
    have h1 : k1 ≠ k := hall (k1, v1) (by simp)
    simp [lookupKey, h1, ih (fun q hq => hall q (by simp [hq]))]

theorem lookupKey_of_not_mem {k : String} :
    ∀ M : List (String × β), (∀ q ∈ M, q.1 ≠ k) → lookupKey k M = none := by
  intro M
  induction M with
  | nil => intro _; rfl
  | cons q t ih =>
    obtain ⟨k1, v1⟩ := q
    intro hall
    have h1 : k1 ≠ k := hall (k1, v1) (by simp)
    simp [lookupKey, h1, ih (fun q hq => hall q (by simp [hq]))]

theorem lookupKey_append_left {k : String} {M : List (String × β)}
    (hM : ∀ q ∈ M, q.1 ≠ k) :
    ∀ L, lookupKey k (L ++ M) = lookupKey k L := by
  intro L
  induction L with
  | nil => simp [lookupKey, lookupKey_of_not_mem M hM]
  | cons q t ih =>
    obtain ⟨k1, v1⟩ := q
    by_cases h1 : k1 = k
    · simp [lookupKey, h1]
    · simp [lookupKey, h1, ih]

/-- `AVLTree._insert` refines sorted-association-list insertion. -/
theorem inorderKV_insert (t : AVLTree β) (k : String) (v : β) (ho : Ordered t) :
    inorderKV (insert t k v) = listInsert k v (inorderKV t) := by
  induction t with
  | nil => simp [insert, inorderKV, listInsert]
  | node nk nv l r h ihl ihr =>
    obtain ⟨hfl, hfr, hol, hor⟩ := ho
    by_cases h1 : k < nk
    · simp only [insert, h1, if_true]
      rw [inorderKV_insRebalance]
      simp only [inorderKV]
      rw [ihl hol, listInsert_append_left _ h1]
    · by_cases h2 : nk < k
      · have hb : ∀ q ∈ inorderKV l, q.1 < k :=
          fun q hq => ((forK_iff l).1 hfl q hq).trans h2
        simp only [insert, h1, h2, if_false, if_true]
        rw [inorderKV_insRebalance]
        simp only [inorderKV]
        rw [ihr hor, listInsert_append_right (inorderKV r) h2 (inorderKV l) hb]
      · have hkeq : k = nk := le_antisymm (not_lt.1 h2) (not_lt.1 h1)
        subst hkeq
        have hb : ∀ q ∈ inorderKV l, q.1 < k := (forK_iff l).1 hfl
        simp only [insert, h1, if_false, lt_irrefl]
        simp only [inorderKV]
        rw [listInsert_append_eq (inorderKV r) (inorderKV l) hb]

/-- The head of the in-order traversal of a node is its minimum
(`AVLTree._min_value_node` of the same node). -/
theorem inorder_min (rl : AVLTree β) :
    ∀ (rk : String) (rv : β) (rr : AVLTree β) (rh : Nat), ∃ T,
      inorderKV (node rk rv rl rr rh) =
        ((minNode rk rv rl).1, (minNode rk rv rl).2) :: T := by
  induction rl with
  | nil =>
    intro rk rv rr rh
    exact ⟨inorderKV rr, by simp [inorderKV, minNode]⟩
  | node k' v' l' r' h' ihl ihr =>
    intro rk rv rr rh
    obtain ⟨T', hT'⟩ := ihl k' v' r' h'
    refine ⟨T' ++ (rk, rv) :: inorderKV rr, ?_⟩
    have : inorderKV (node rk rv (node k' v' l' r' h') rr rh) =
        inorderKV (node k' v' l' r' h') ++ (rk, rv) :: inorderKV rr := by
      simp [inorderKV]
    rw [this, hT']
    simp [minNode]

theorem inorderKV_node (k : String) (v : β) (l r : AVLTree β) (h : Nat) :
    inorderKV (node k v l r h) = inorderKV l ++ (k, v) :: inorderKV r := rfl

/-- `AVLTree._delete` refines key removal on the sorted association list. -/
theorem inorderKV_delete (t : AVLTree β) :
    ∀ (k : String), Ordered t → inorderKV (delete t k) = listEraseKey k (inorderKV t) := by
  induction t with
  | nil => intro k _; rfl
  | node nk nv l r h ihl ihr =>
    intro k ho
    obtain ⟨hfl, hfr, hol, hor⟩ := ho
    have hLlt : ∀ q ∈ inorderKV l, q.1 < nk := (forK_iff l).1 hfl
    have hRgt : ∀ q ∈ inorderKV r, nk < q.1 := (forK_iff r).1 hfr
    by_cases h1 : k < nk
    · have hM : ∀ q ∈ (nk, nv) :: inorderKV r, q.1 ≠ k := by
        intro q hq he
        rcases List.mem_cons.1 hq with hq | hq
        · subst hq
          have hnk : nk = k := he
          rw [hnk] at h1
          exact lt_irrefl k h1
        · have := hRgt q hq
          rw [he] at this
          exact lt_irrefl k (h1.trans this)
      rw [AVLTree.delete.eq_def]
      simp only [h1, if_true]
      rw [inorderKV_delRebalance, inorderKV_node, inorderKV_node]
      rw [ihl k hol, listEraseKey_append_left hM (inorderKV l)]
    · by_cases h2 : nk < k
      · have hL : ∀ q ∈ inorderKV l, q.1 ≠ k := by
          intro q hq he
          have := hLlt q hq
          rw [he] at this
          exact lt_irrefl k (this.trans h2)
        have hnk : (¬ nk = k) := fun he => absurd (he ▸ h2) (lt_irrefl _)
        rw [AVLTree.delete.eq_def]
        simp only [h1, h2, if_false, if_true]
        rw [inorderKV_delRebalance, inorderKV_node, inorderKV_node]
        rw [ihr k hor, listEraseKey_append_right (inorderKV l) hL ((nk, nv) :: inorderKV r)]
        simp [listEraseKey, hnk]
      · have hkeq : k = nk := le_antisymm (not_lt.1 h2) (not_lt.1 h1)
        subst hkeq
        have hL : ∀ q ∈ inorderKV l, q.1 ≠ k := by
          intro q hq he
          exact absurd (he ▸ hLlt q hq) (lt_irrefl k)
        cases l with
        | nil =>
          have hd : delete (node k nv nil r h) k = r := by
            rw [AVLTree.delete.eq_def]
            simp [lt_irrefl]
          rw [hd, inorderKV_node]
          simp [inorderKV, listEraseKey]
        | node lk lv ll lr lh =>
          cases r with
          | nil =>
            have hd : delete (node k nv (node lk lv ll lr lh) nil h) k =
                node lk lv ll lr lh := by
              rw [AVLTree.delete.eq_def]
              simp [lt_irrefl]
            rw [hd]
            rw [inorderKV_node (k := k)]
            have hfound := @listEraseKey_append_found β k nv ([] : List (String × β))
              (inorderKV (node lk lv ll lr lh)) hL
            rw [show inorderKV (nil : AVLTree β) = [] from rfl, hfound]
            simp
          | node rk rv rl rr rh =>
            have hd : delete (node k nv (node lk lv ll lr lh) (node rk rv rl rr rh) h) k =
                delRebalance (node (minNode rk rv rl).1 (minNode rk rv rl).2
                  (node lk lv ll lr lh)
                  (delete (node rk rv rl rr rh) (minNode rk rv rl).1) h) := by
              rw [AVLTree.delete.eq_def]
              simp [lt_irrefl]
            rw [hd, inorderKV_delRebalance, inorderKV_node]
            obtain ⟨T, hT⟩ := inorder_min rl rk rv rr rh
            have hdel := ihr (minNode rk rv rl).1 hor
            rw [hT] at hdel
            simp [listEraseKey] at hdel
            rw [hdel]
            rw [inorderKV_node (k := k), hT]
            have hfound := @listEraseKey_append_found β k nv
              (((minNode rk rv rl).1, (minNode rk rv rl).2) :: T)
              (inorderKV (node lk lv ll lr lh)) hL
            rw [hfound]

/-- The BST invariant is exactly strict sortedness of the in-order key list. -/
theorem ordered_iff_pairwise (t : AVLTree β) :
    Ordered t ↔ (inorderKV t).Pairwise (fun a b => a.1 < b.1) := by
  induction t with
  | nil => simp [Ordered, inorderKV]
  | node nk nv l r h ihl ihr =>
    simp only [Ordered, inorderKV_node, List.pairwise_append, List.pairwise_cons]
    constructor
    · rintro ⟨hfl, hfr, hol, hor⟩
      have hLlt := (forK_iff l).1 hfl
      have hRgt := (forK_iff r).1 hfr
      refine ⟨ihl.1 hol, ⟨fun q hq => hRgt q hq, ihr.1 hor⟩, ?_⟩
      intro a ha b hb
      rcases List.mem_cons.1 hb with hb | hb
      · rw [hb]; exact hLlt a ha
      · exact (hLlt a ha).trans (hRgt b hb)
    · rintro ⟨hpl, ⟨hnk, hpr⟩, hcross⟩
      refine ⟨(forK_iff l).2 ?_, (forK_iff r).2 hnk, ihl.2 hpl, ihr.2 hpr⟩
      intro q hq
      exact hcross q hq (nk, nv) (by simp)

theorem keys_listInsert {k : String} {v : β} :
    ∀ (L : List (String × β)) (q), q ∈ listInsert k v L → q.1 = k ∨ q ∈ L := by
  intro L
  induction L with
  | nil => intro q hq; simp [listInsert] at hq; simp [hq]
  | cons p t ih =>
    obtain ⟨k1, v1⟩ := p
    intro q hq
    by_cases h1 : k < k1
    · simp only [listInsert, h1, if_true, List.mem_cons] at hq
      rcases hq with hq | hq | hq
      · left; simp [hq]
      · right; simp [hq]
      · right; simp [hq]
    · by_cases h2 : k1 < k
      · simp only [listInsert, h1, h2, if_false, if_true, List.mem_cons] at hq
        rcases hq with hq | hq
        · right; simp [hq]
        · rcases ih q hq with h | h
          · left; exact h
          · right; simp [h]
      · have hk : k = k1 := le_antisymm (not_lt.1 h2) (not_lt.1 h1)
        simp only [listInsert, h1, h2, if_false, List.mem_cons] at hq
        rcases hq with hq | hq
        · left; simp [hq, hk]
        · right; simp [hq]

/-- Sorted-list insertion keeps the list strictly sorted. -/
theorem pairwise_listInsert {k : String} {v : β} :
    ∀ L : List (String × β), L.Pairwise (fun a b => a.1 < b.1) →
      (listInsert k v L).Pairwise (fun a b => a.1 < b.1) := by
  intro L
  induction L with
  | nil => intro _; simp [listInsert]
  | cons p t ih =>
    obtain ⟨k1, v1⟩ := p
    intro hp
    rcases List.pairwise_cons.1 hp with ⟨hhead, htail⟩
    by_cases h1 : k < k1
    · simp only [listInsert, h1, if_true]
      refine List.pairwise_cons.2 ⟨?_, hp⟩
      intro q hq
      rcases List.mem_cons.1 hq with hq | hq
      · rw [hq]; exact h1
      · exact h1.trans (hhead q hq)
    · by_cases h2 : k1 < k
      · simp only [listInsert, h1, h2, if_false, if_true]
        refine List.pairwise_cons.2 ⟨?_, ih htail⟩
        intro q hq
        rcases keys_listInsert t q hq with h | h
        · rw [h]; exact h2
        · exact hhead q h
      · have hk : k = k1 := le_antisymm (not_lt.1 h2) (not_lt.1 h1)
        simp only [listInsert, h1, h2, if_false]
        exact List.pairwise_cons.2 ⟨fun q hq => hk ▸ hhead q hq, htail⟩

theorem listEraseKey_sublist (k : String) :
    ∀ L : List (String × β), (listEraseKey k L).Sublist L := by
  intro L
  induction L with
  | nil => simp [listEraseKey]
  | cons p t ih =>
    obtain ⟨k1, v1⟩ := p
    by_cases h1 : k1 = k
    · simp only [listEraseKey, h1, if_true]
      exact List.sublist_cons_self _ _
    · simp only [listEraseKey, h1, if_false]
      exact ih.cons₂ _

/-- `insert` keeps the BST invariant. -/
theorem ordered_insert (t : AVLTree β) (k : String) (v : β) (ho : Ordered t) :
    Ordered (insert t k v) := by
  rw [ordered_iff_pairwise, inorderKV_insert t k v ho]
  exact pairwise_listInsert _ ((ordered_iff_pairwise t).1 ho)

/-- `delete` keeps the BST invariant. -/
theorem ordered_delete (t : AVLTree β) (k : String) (ho : Ordered t) :
    Ordered (delete t k) := by
  rw [ordered_iff_pairwise, inorderKV_delete t k ho]
  exact ((ordered_iff_pairwise t).1 ho).sublist (listEraseKey_sublist k _)

/-- `AVLTree._search` refines association-list lookup. -/
theorem search_eq_lookupKey (t : AVLTree β) (k : String) (ho : Ordered t) :
    search t k = lookupKey k (inorderKV t) := by
  induction t with
  | nil => rfl
  | node nk nv l r h ihl ihr =>
    obtain ⟨hfl, hfr, hol, hor⟩ := ho
    have hLlt : ∀ q ∈ inorderKV l, q.1 < nk := (forK_iff l).1 hfl
    have hRgt : ∀ q ∈ inorderKV r, nk < q.1 := (forK_iff r).1 hfr
    by_cases he : nk = k
    · subst he
      have hL : ∀ q ∈ inorderKV l, q.1 ≠ nk :=
        fun q hq h' => absurd (h' ▸ hLlt q hq) (lt_irrefl nk)
      simp only [search, if_pos rfl, inorderKV_node]
      rw [lookupKey_append_right (inorderKV l) hL]
      simp [lookupKey]
    · by_cases h1 : k < nk
      · have hM : ∀ q ∈ (nk, nv) :: inorderKV r, q.1 ≠ k := by
          intro q hq h'
          rcases List.mem_cons.1 hq with hq | hq
          · subst hq
            exact he h'
          · have := hRgt q hq
            rw [h'] at this
            exact lt_irrefl k (h1.trans this)
        simp only [search, he, if_false, h1, if_true, inorderKV_node]
        rw [lookupKey_append_left hM (inorderKV l)]
        exact ihl hol
      · have h2 : nk < k := by
          rcases lt_trichotomy nk k with h' | h' | h'
          · exact h'
          · exact absurd h' he
          · exact absurd h' h1
        have hL : ∀ q ∈ inorderKV l, q.1 ≠ k := by
          intro q hq h'
          have := hLlt q hq
          rw [h'] at this
          exact lt_irrefl k (this.trans h2)
        simp only [search, he, if_false, h1, inorderKV_node]
        rw [lookupKey_append_right (inorderKV l) hL]
        simp only [lookupKey, he, if_false]
        exact ihr hor

theorem lookupKey_listInsert_self (k : String) (v : β) :
    ∀ L : List (String × β), lookupKey k (listInsert k v L) = some v := by
  intro L
  induction L with
  | nil => simp [listInsert, lookupKey]
  | cons p t ih =>
    obtain ⟨k1, v1⟩ := p
    by_cases h1 : k < k1
    · have hne : k1 ≠ k := fun he => absurd (he ▸ h1) (lt_irrefl _)
      simp [listInsert, h1, lookupKey]
    · by_cases h2 : k1 < k
      · have hne : k1 ≠ k := fun he => absurd (he ▸ h2) (lt_irrefl _)
        simp [listInsert, h1, h2, lookupKey, hne, ih]
      · have hk : k = k1 := le_antisymm (not_lt.1 h2) (not_lt.1 h1)
        simp [listInsert, h1, h2, lookupKey, hk]

theorem lookupKey_listInsert_other (k k' : String) (v : β) (hk : k' ≠ k) :
    ∀ L : List (String × β), lookupKey k' (listInsert k v L) = lookupKey k' L := by
  have hk2 : ¬ k = k' := fun he => hk he.symm
  intro L
  induction L with
  | nil => simp [listInsert, lookupKey, hk2]
  | cons p t ih =>
    obtain ⟨k1, v1⟩ := p
    by_cases h1 : k < k1
    · simp [listInsert, h1, lookupKey, hk2]
    · by_cases h2 : k1 < k
      · simp [listInsert, h1, h2, lookupKey, ih]
      · have hkk : k = k1 := le_antisymm (not_lt.1 h2) (not_lt.1 h1)
        subst hkk
        simp [listInsert, h1, h2, lookupKey, hk2]

theorem listInsert_of_head_gt {k : String} {v : β} :
    ∀ T : List (String × β), (∀ q ∈ T, k < q.1) → listInsert k v T = (k, v) :: T := by
  intro T
  induction T with
  | nil => intro _; rfl
  | cons p t ih =>
    obtain ⟨k1, v1⟩ := p
    intro hall
    have h1 : k < k1 := hall (k1, v1) (by simp)
    simp [listInsert, h1]

/-- Re-inserting a key right after erasing it restores the sorted list that a
plain overwrite insertion would have produced. -/
theorem listInsert_listEraseKey (k : String) (v : β) :
    ∀ L : List (String × β), L.Pairwise (fun a b => a.1 < b.1) →
      listInsert k v (listEraseKey k L) = listInsert k v L := by
  intro L
  induction L with
  | nil => intro _; rfl
  | cons p t ih =>
    obtain ⟨k1, v1⟩ := p
    intro hp
    rcases List.pairwise_cons.1 hp with ⟨hhead, htail⟩
    by_cases h1 : k1 = k
    · subst h1
      simp only [listEraseKey, if_pos rfl]
      have h2 : ¬ k1 < k1 := lt_irrefl k1
      simp only [listInsert, h2, if_false]
      exact listInsert_of_head_gt t (fun q hq => hhead q hq)
    · simp only [listEraseKey, h1, if_false]
      by_cases h2 : k < k1
      · have hnot : ∀ q ∈ t, q.1 ≠ k := by
          intro q hq he
          have := hhead q hq
          rw [he] at this
          exact lt_irrefl k (h2.trans this)
        simp only [listInsert, h2, if_true]
        rw [listEraseKey_of_not_mem t hnot]
      · by_cases h3 : k1 < k
        · simp only [listInsert, h2, h3, if_false, if_true]
          rw [ih htail]
        · exact absurd (le_antisymm (not_lt.1 h3) (not_lt.1 h2)).symm h1

theorem size_right_rotate (t : AVLTree β) : size (right_rotate t) = size t := by
  cases t with
  | nil => rfl
  | node ky vy l r h =>
    cases l with
    | nil => rfl
    | node kx vx a t2 h2 =>
      simp [right_rotate, size]
      omega

theorem size_left_rotate (t : AVLTree β) : size (left_rotate t) = size t := by
  cases t with
  | nil => rfl
  | node kx vx l r h =>
    cases r with
    | nil => rfl
    | node ky vy t2 b h2 =>
      simp [left_rotate, size]
      omega

theorem size_insRebalance (t : AVLTree β) (k : String) :
    size (insRebalance t k) = size t := by
  cases t with
  | nil => rfl
  | node nk nv l r h =>
    simp only [insRebalance]
    repeat' split
    all_goals simp [size_right_rotate, size_left_rotate, size]
    all_goals omega

/-- A duplicate-key insert overwrites in place: the node count is unchanged. -/
theorem size_insert_of_found (t : AVLTree β) (k : String) (v w : β)
    (hf : search t k = some w) : size (insert t k v) = size t := by
  induction t with
  | nil => simp [search] at hf
  | node nk nv l r h ihl ihr =>
    by_cases h1 : k < nk
    · have hne : nk ≠ k := fun he => absurd (he ▸ h1) (lt_irrefl _)
      simp only [search, hne, if_false, h1, if_true] at hf
      simp only [insert, h1, if_true]
      rw [size_insRebalance]
      simp [size, ihl hf]
    · by_cases h2 : nk < k
      · have hne : nk ≠ k := fun he => absurd (he ▸ h2) (lt_irrefl _)
        simp only [search, hne, if_false, h1, if_true] at hf
        simp only [insert, h1, h2, if_false, if_true]
        rw [size_insRebalance]
        simp [size, ihr hf]
      · simp [insert, h1, h2, size]

/-- Inserting a fresh key adds exactly one node. -/
theorem size_insert_of_not_found (t : AVLTree β) (k : String) (v : β)
    (hf : search t k = none) : size (insert t k v) = size t + 1 := by
  induction t with
  | nil => simp [insert, size]
  | node nk nv l r h ihl ihr =>
    by_cases he : nk = k
    · simp [search, he] at hf
    · simp only [search, he, if_false] at hf
      by_cases h1 : k < nk
      · simp only [h1, if_true] at hf
        simp only [insert, h1, if_true]
        rw [size_insRebalance]
        simp [size, ihl hf]
        omega
      · have h2 : nk < k := by
          rcases lt_trichotomy nk k with h' | h' | h'
          · exact h'
          · exact absurd h' he
          · exact absurd h' h1
        simp only [h1, if_false] at hf
        simp only [insert, h1, h2, if_false, if_true]
        rw [size_insRebalance]
        simp [size, ihr hf]
        omega


theorem height_nil : height (nil : AVLTree β) = 0 := rfl

theorem height_node (nk : String) (nv : β) (l r : AVLTree β) (h : Nat) :
    height (node nk nv l r h) = h := rfl

theorem node_of_height_pos {t : AVLTree β} (h : 0 < height t) :
    ∃ nk nv l r hh, t = node nk nv l r hh := by
  cases t with
  | nil => simp [height] at h
  | node nk nv l r hh => exact ⟨nk, nv, l, r, hh, rfl⟩

/-- Effect of the insertion rebalancing when the (possibly grown) subtree is
the left child: either the left child overflowed by two and a rotation
restores balance at the pre-insertion height, or no rotation happens. -/
theorem insRebalance_grow_left (nk : String) (nv : β) (l' r : AVLTree β) (k : String)
    (hbl : HB l') (hbr : HB r)
    (hle : height l' ≤ height r + 2) (hge : height r ≤ height l' + 1)
    (hgrow : height l' = height r + 2 → grewShape l' k) :
    (height l' = height r + 2 ∧
      HB (insRebalance (node nk nv l' r (1 + max (height l') (height r))) k) ∧
      height (insRebalance (node nk nv l' r (1 + max (height l') (height r))) k) =
        height r + 2) ∨
    (height l' ≤ height r + 1 ∧
      insRebalance (node nk nv l' r (1 + max (height l') (height r))) k =
        node nk nv l' r (1 + max (height l') (height r))) := by
  by_cases hcase : height l' = height r + 2
  · left
    refine ⟨hcase, ?_⟩
    obtain ⟨lk, lv, la, lb, lh, rfl⟩ := node_of_height_pos (t := l') (by omega)
    obtain ⟨hba, hbb, hlh, hbal1, hbal2⟩ := hbl
    rw [height_node] at hcase
    have hb1 : (1 : Int) <
        get_balance (node nk nv (node lk lv la lb lh) r
          (1 + max (height (node lk lv la lb lh)) (height r))) := by
      simp only [get_balance, height_node]
      omega
    rcases hgrow (by rw [height_node]; exact hcase) with
      ⟨hla, hlb⟩ | ⟨hklk, hshape⟩ | ⟨hlkk, hshape⟩
    · subst hla hlb
      rw [height_nil] at hlh
      omega
    · -- left-left: single right rotation
      simp only [insRebalance]
      rw [if_pos hb1, if_pos hklk]
      simp only [right_rotate, height_node]
      simp only [HB, height_node]
      refine ⟨⟨hba, ⟨hbb, hbr, trivial, by omega, by omega⟩, trivial, by omega, by omega⟩, by omega⟩
    · -- left-right: rotate the left child left, then right
      have hknlk : ¬ k < lk := fun h' => absurd (h'.trans hlkk) (lt_irrefl k)
      obtain ⟨mk2, mv2, ma, mb, mh, rfl⟩ := node_of_height_pos (t := lb) (by omega)
      obtain ⟨hbma, hbmb, hmh, hmbal1, hmbal2⟩ := hbb
      rw [height_node] at hshape hlh hbal1 hbal2
      simp only [insRebalance]
      rw [if_pos hb1, if_neg hknlk, if_pos hlkk]
      simp only [left_rotate, right_rotate, height_node]
      simp only [HB, height_node]
      refine ⟨⟨⟨hba, hbma, trivial, by omega, by omega⟩,
        ⟨hbmb, hbr, trivial, by omega, by omega⟩, trivial, by omega, by omega⟩, by omega⟩
  · right
    have hb1 : ¬ (1 : Int) <
        get_balance (node nk nv l' r (1 + max (height l') (height r))) := by
      simp only [get_balance]
      omega
    have hb2 : ¬ get_balance (node nk nv l' r (1 + max (height l') (height r))) < -1 := by
      simp only [get_balance]
      omega
    refine ⟨by omega, ?_⟩
    simp only [insRebalance]
    rw [if_neg hb1, if_neg hb2]

/-- Mirror image of `insRebalance_grow_left` for a grown right child. -/
theorem insRebalance_grow_right (nk : String) (nv : β) (l r' : AVLTree β) (k : String)
    (hbl : HB l) (hbr : HB r')
    (hle : height r' ≤ height l + 2) (hge : height l ≤ height r' + 1)
    (hgrow : height r' = height l + 2 → grewShape r' k) :
    (height r' = height l + 2 ∧
      HB (insRebalance (node nk nv l r' (1 + max (height l) (height r'))) k) ∧
      height (insRebalance (node nk nv l r' (1 + max (height l) (height r'))) k) =
        height l + 2) ∨
    (height r' ≤ height l + 1 ∧
      insRebalance (node nk nv l r' (1 + max (height l) (height r'))) k =
        node nk nv l r' (1 + max (height l) (height r'))) := by
  have hb1 : ¬ (1 : Int) <
      get_balance (node nk nv l r' (1 + max (height l) (height r'))) := by
    simp only [get_balance]
    omega
  by_cases hcase : height r' = height l + 2
  · left
    refine ⟨hcase, ?_⟩
    obtain ⟨rk, rv, ra, rb, rh, rfl⟩ := node_of_height_pos (t := r') (by omega)
    obtain ⟨hba, hbb, hrh, hbal1, hbal2⟩ := hbr
    rw [height_node] at hcase
    have hb2 : get_balance (node nk nv l (node rk rv ra rb rh)
        (1 + max (height l) (height (node rk rv ra rb rh)))) < -1 := by
      simp only [get_balance, height_node]
      omega
    rcases hgrow (by rw [height_node]; exact hcase) with
      ⟨hra, hrb⟩ | ⟨hkrk, hshape⟩ | ⟨hrkk, hshape⟩
    · subst hra hrb
      rw [height_nil] at hrh
      omega
    · -- right-left: rotate the right child right, then left
      have hnrkk : ¬ rk < k := fun h' => absurd (hkrk.trans h') (lt_irrefl k)
      obtain ⟨mk2, mv2, ma, mb, mh, rfl⟩ := node_of_height_pos (t := ra) (by omega)
      obtain ⟨hbma, hbmb, hmh, hmbal1, hmbal2⟩ := hba
      rw [height_node] at hshape hrh hbal1 hbal2
      simp only [insRebalance]
      rw [if_neg hb1, if_pos hb2, if_neg hnrkk, if_pos hkrk]
      simp only [left_rotate, right_rotate, height_node]
      simp only [HB, height_node]
      refine ⟨⟨⟨hbl, hbma, trivial, by omega, by omega⟩,
        ⟨hbmb, hbb, trivial, by omega, by omega⟩, trivial, by omega, by omega⟩, by omega⟩
    · -- right-right: single left rotation
      simp only [insRebalance]
      rw [if_neg hb1, if_pos hb2, if_pos hrkk]
      simp only [left_rotate, height_node]
      simp only [HB, height_node]
      refine ⟨⟨⟨hbl, hba, trivial, by omega, by omega⟩, hbb, trivial,
        by omega, by omega⟩, by omega⟩
  · right
    have hb2 : ¬ get_balance (node nk nv l r' (1 + max (height l) (height r'))) < -1 := by
      simp only [get_balance]
      omega
    refine ⟨by omega, ?_⟩
    simp only [insRebalance]
    rw [if_neg hb1, if_neg hb2]

/-- `insert` keeps the height/balance invariant; the height grows by at most
one, and when it grows the new tree records which side got taller. -/
theorem hb_insert (t : AVLTree β) (k : String) (v : β) (hb : HB t) :
    HB (insert t k v) ∧
      (height (insert t k v) = height t ∨
       (height (insert t k v) = height t + 1 ∧ grewShape (insert t k v) k)) := by
  induction t with
  | nil =>
    refine ⟨⟨trivial, trivial, by simp [height_nil], by simp [height_nil], by simp [height_nil]⟩, Or.inr ⟨rfl, Or.inl ⟨rfl, rfl⟩⟩⟩
  | node nk nv l r h ihl ihr =>
    obtain ⟨hbl, hbr, hh, hv1, hv2⟩ := hb
    by_cases h1 : k < nk
    · obtain ⟨hbl', hgl⟩ := ihl hbl
      simp only [insert, h1, if_true]
      have hle : height (insert l k v) ≤ height r + 2 := by
        rcases hgl with h' | ⟨h', _⟩ <;> omega
      have hge : height r ≤ height (insert l k v) + 1 := by
        rcases hgl with h' | ⟨h', _⟩ <;> omega
      have hgrow : height (insert l k v) = height r + 2 →
          grewShape (insert l k v) k := by
        intro hc
        rcases hgl with h' | ⟨h', hg⟩
        · omega
        · exact hg
      rcases insRebalance_grow_left nk nv (insert l k v) r k hbl' hbr hle hge hgrow with
        ⟨hcase, hbres, hhres⟩ | ⟨hcase, hres⟩
      · refine ⟨hbres, Or.inl ?_⟩
        rw [height_node, hhres]
        rcases hgl with h' | ⟨h', _⟩ <;> omega
      · rw [hres]
        refine ⟨⟨hbl', hbr, rfl, by omega, by omega⟩, ?_⟩
        rw [height_node, height_node]
        rcases hgl with h' | ⟨h', hg⟩
        · left; omega
        · by_cases hmax : 1 + max (height (insert l k v)) (height r) = h
          · left; exact hmax
          · right
            refine ⟨by omega, ?_⟩
            simp only [grewShape, height_node]
            exact Or.inr (Or.inl ⟨h1, by omega⟩)
    · by_cases h2 : nk < k
      · obtain ⟨hbr', hgr⟩ := ihr hbr
        simp only [insert, h1, h2, if_false, if_true]
        have hle : height (insert r k v) ≤ height l + 2 := by
          rcases hgr with h' | ⟨h', _⟩ <;> omega
        have hge : height l ≤ height (insert r k v) + 1 := by
          rcases hgr with h' | ⟨h', _⟩ <;> omega
        have hgrow : height (insert r k v) = height l + 2 →
            grewShape (insert r k v) k := by
          intro hc
          rcases hgr with h' | ⟨h', hg⟩
          · omega
          · exact hg
        rcases insRebalance_grow_right nk nv l (insert r k v) k hbl hbr' hle hge hgrow with
          ⟨hcase, hbres, hhres⟩ | ⟨hcase, hres⟩
        · refine ⟨hbres, Or.inl ?_⟩
          rw [height_node, hhres]
          rcases hgr with h' | ⟨h', _⟩ <;> omega
        · rw [hres]
          refine ⟨⟨hbl, hbr', rfl, by omega, by omega⟩, ?_⟩
          rw [height_node, height_node]
          rcases hgr with h' | ⟨h', hg⟩
          · left; omega
          · by_cases hmax : 1 + max (height l) (height (insert r k v)) = h
            · left; exact hmax
            · right
              refine ⟨by omega, ?_⟩
              simp only [grewShape, height_node]
              exact Or.inr (Or.inr ⟨h2, by omega⟩)
      · have hins : insert (node nk nv l r h) k v = node nk v l r h := by
          simp only [insert]
          rw [if_neg h1, if_neg h2]
        rw [hins]
        exact ⟨⟨hbl, hbr, hh, hv1, hv2⟩, Or.inl rfl⟩

/-- Effect of the deletion rebalancing (child balance factors select the
rotation): the result is balanced, and its height is the recomputed height or
one less (the latter only when one side overflowed by two). -/
theorem delRebalance_spec (nk : String) (nv : β) (l r : AVLTree β) (h : Nat)
    (hbl : HB l) (hbr : HB r)
    (hle : height l ≤ height r + 2) (hge : height r ≤ height l + 2) :
    HB (delRebalance (node nk nv l r h)) ∧
      (height (delRebalance (node nk nv l r h)) = 1 + max (height l) (height r) ∨
       (height (delRebalance (node nk nv l r h)) = max (height l) (height r) ∧
        (height l = height r + 2 ∨ height r = height l + 2))) := by
  by_cases hc1 : height l = height r + 2
  · -- left overflow
    obtain ⟨lk, lv, la, lb, lh, rfl⟩ := node_of_height_pos (t := l) (by omega)
    obtain ⟨hba, hbb, hlh, hbal1, hbal2⟩ := hbl
    rw [height_node] at hc1
    have hb1 : (1 : Int) < get_balance (node nk nv (node lk lv la lb lh) r
        (1 + max (height (node lk lv la lb lh)) (height r))) := by
      simp only [get_balance, height_node]
      omega
    by_cases hcb : (0 : Int) ≤ get_balance (node lk lv la lb lh)
    · -- child not right-heavy: single right rotation
      simp only [get_balance, height_node] at hcb
      simp only [delRebalance]
      rw [if_pos hb1, if_pos (by simp only [get_balance, height_node]; omega)]
      simp only [right_rotate, height_node]
      simp only [HB, height_node]
      refine ⟨⟨hba, ⟨hbb, hbr, trivial, by omega, by omega⟩, trivial,
        by omega, by omega⟩, by omega⟩
    · -- child right-heavy: double rotation
      simp only [get_balance, height_node] at hcb
      obtain ⟨mk2, mv2, ma, mb, mh, rfl⟩ := node_of_height_pos (t := lb) (by omega)
      obtain ⟨hbma, hbmb, hmh, hmbal1, hmbal2⟩ := hbb
      rw [height_node] at hcb hlh hbal1 hbal2
      simp only [delRebalance]
      rw [if_pos hb1, if_neg (by simp only [get_balance, height_node]; omega)]
      simp only [left_rotate, right_rotate, height_node]
      simp only [HB, height_node]
      refine ⟨⟨⟨hba, hbma, trivial, by omega, by omega⟩,
        ⟨hbmb, hbr, trivial, by omega, by omega⟩, trivial, by omega, by omega⟩,
        by omega⟩
  · by_cases hc2 : height r = height l + 2
    · -- right overflow
      obtain ⟨rk, rv, ra, rb, rh, rfl⟩ := node_of_height_pos (t := r) (by omega)
      obtain ⟨hba, hbb, hrh, hbal1, hbal2⟩ := hbr
      rw [height_node] at hc2
      have hb1 : ¬ (1 : Int) < get_balance (node nk nv l (node rk rv ra rb rh)
          (1 + max (height l) (height (node rk rv ra rb rh)))) := by
        simp only [get_balance, height_node]
        omega
      have hb2 : get_balance (node nk nv l (node rk rv ra rb rh)
          (1 + max (height l) (height (node rk rv ra rb rh)))) < -1 := by
        simp only [get_balance, height_node]
        omega
      by_cases hcb : get_balance (node rk rv ra rb rh) ≤ (0 : Int)
      · -- child not left-heavy: single left rotation
        simp only [get_balance, height_node] at hcb
        simp only [delRebalance]
        rw [if_neg hb1, if_pos hb2, if_pos (by simp only [get_balance, height_node]; omega)]
        simp only [left_rotate, height_node]
        simp only [HB, height_node]
        refine ⟨⟨⟨hbl, hba, trivial, by omega, by omega⟩, hbb, trivial,
          by omega, by omega⟩, by omega⟩
      · -- child left-heavy: double rotation
        simp only [get_balance, height_node] at hcb
        obtain ⟨mk2, mv2, ma, mb, mh, rfl⟩ := node_of_height_pos (t := ra) (by omega)
        obtain ⟨hbma, hbmb, hmh, hmbal1, hmbal2⟩ := hba
        rw [height_node] at hcb hrh hbal1 hbal2
        simp only [delRebalance]
        rw [if_neg hb1, if_pos hb2, if_neg (by simp only [get_balance, height_node]; omega)]
        simp only [left_rotate, right_rotate, height_node]
        simp only [HB, height_node]
        refine ⟨⟨⟨hbl, hbma, trivial, by omega, by omega⟩,
          ⟨hbmb, hbb, trivial, by omega, by omega⟩, trivial, by omega, by omega⟩,
          by omega⟩
    · -- balanced enough: no rotation
      have hb1 : ¬ (1 : Int) < get_balance (node nk nv l r
          (1 + max (height l) (height r))) := by
        simp only [get_balance]
        omega
      have hb2 : ¬ get_balance (node nk nv l r (1 + max (height l) (height r))) < -1 := by
        simp only [get_balance]
        omega
      simp only [delRebalance]
      rw [if_neg hb1, if_neg hb2]
      exact ⟨⟨hbl, hbr, rfl, by omega, by omega⟩, Or.inl (by rw [height_node])⟩

/-- `delete` keeps the height/balance invariant; the height shrinks by at
most one. -/
theorem hb_delete (t : AVLTree β) :
    ∀ (k : String), HB t → HB (delete t k) ∧
      height t ≤ height (delete t k) + 1 ∧ height (delete t k) ≤ height t := by
  induction t with
  | nil =>
    intro k _
    have hd : delete (nil : AVLTree β) k = nil := rfl
    rw [hd]
    exact ⟨trivial, by omega, by omega⟩
  | node nk nv l r h ihl ihr =>
    intro k hb
    obtain ⟨hbl, hbr, hh, hv1, hv2⟩ := hb
    by_cases h1 : k < nk
    · obtain ⟨hbl', hd1, hd2⟩ := ihl k hbl
      have hdef : delete (node nk nv l r h) k =
          delRebalance (node nk nv (delete l k) r h) := by
        rw [AVLTree.delete.eq_def]
        simp only [h1, if_true]
      rw [hdef]
      obtain ⟨hbres, hhres⟩ :=
        delRebalance_spec nk nv (delete l k) r h hbl' hbr (by omega) (by omega)
      refine ⟨hbres, ?_, ?_⟩ <;> rw [height_node] <;> omega
    · by_cases h2 : nk < k
      · obtain ⟨hbr', hd1, hd2⟩ := ihr k hbr
        have hdef : delete (node nk nv l r h) k =
            delRebalance (node nk nv l (delete r k) h) := by
          rw [AVLTree.delete.eq_def]
          simp only [h1, h2, if_false, if_true]
        rw [hdef]
        obtain ⟨hbres, hhres⟩ :=
          delRebalance_spec nk nv l (delete r k) h hbl hbr' (by omega) (by omega)
        refine ⟨hbres, ?_, ?_⟩ <;> rw [height_node] <;> omega
      · have hkeq : k = nk := le_antisymm (not_lt.1 h2) (not_lt.1 h1)
        subst hkeq
        cases l with
        | nil =>
          have hdef : delete (node k nv nil r h) k = r := by
            rw [AVLTree.delete.eq_def]
            simp [lt_irrefl]
          rw [hdef]
          rw [height_nil] at hh
          simp only [height_node] at hh ⊢
          exact ⟨hbr, by omega, by omega⟩
        | node lk lv ll lr lh =>
          cases r with
          | nil =>
            have hdef : delete (node k nv (node lk lv ll lr lh) nil h) k =
                node lk lv ll lr lh := by
              rw [AVLTree.delete.eq_def]
              simp [lt_irrefl]
            rw [hdef]
            rw [height_nil] at hh
            simp only [height_node] at hh ⊢
            exact ⟨hbl, by omega, by omega⟩
          | node rk rv rl rr rh =>
            have hdef : delete (node k nv (node lk lv ll lr lh) (node rk rv rl rr rh) h) k =
                delRebalance (node (minNode rk rv rl).1 (minNode rk rv rl).2
                  (node lk lv ll lr lh)
                  (delete (node rk rv rl rr rh) (minNode rk rv rl).1) h) := by
              rw [AVLTree.delete.eq_def]
              simp [lt_irrefl]
            rw [hdef]
            obtain ⟨hbr', hd1, hd2⟩ := ihr (minNode rk rv rl).1 hbr
            obtain ⟨hbres, hhres⟩ :=
              delRebalance_spec (minNode rk rv rl).1 (minNode rk rv rl).2
                (node lk lv ll lr lh) (delete (node rk rv rl rr rh) (minNode rk rv rl).1)
                h hbl hbr' (by omega) (by omega)
            refine ⟨hbres, ?_, ?_⟩ <;> rw [height_node] <;> omega

theorem listInsert_listInsert (k : String) (v : β) :
    ∀ L : List (String × β), listInsert k v (listInsert k v L) = listInsert k v L := by
  intro L
  induction L with
  | nil => simp [listInsert, lt_irrefl]
  | cons p t ih =>
    obtain ⟨k1, v1⟩ := p
    by_cases h1 : k < k1
    · simp [listInsert, h1, lt_irrefl]
    · by_cases h2 : k1 < k
      · simp [listInsert, h1, h2, ih]
      · have hk : k = k1 := le_antisymm (not_lt.1 h2) (not_lt.1 h1)
        subst hk
        simp [listInsert, h1, h2]

/-- A freshly inserted key is found, with the new value. -/
theorem search_insert_self (t : AVLTree β) (k : String) (v : β) (ho : Ordered t) :
    search (insert t k v) k = some v := by
  rw [search_eq_lookupKey _ _ (ordered_insert t k v ho), inorderKV_insert t k v ho]
  exact lookupKey_listInsert_self k v _

/-- Inserting at one key leaves exact search at any other key unchanged. -/
theorem search_insert_other (t : AVLTree β) (k k' : String) (v : β)
    (ho : Ordered t) (hk : k' ≠ k) :
    search (insert t k v) k' = search t k' := by
  rw [search_eq_lookupKey _ _ (ordered_insert t k v ho), inorderKV_insert t k v ho,
    lookupKey_listInsert_other k k' v hk, search_eq_lookupKey _ _ ho]

end AVLTree

/-- The inserted book shows up in a prefix search for its own word. -/
theorem mem_prefix_search_insert_self (t : TrieNode) (w : String) (b : Book) :
    b ∈ Trie.prefix_search (Trie.insert t w b) w := by
  rw [prefix_search_eq_psAux]
  obtain ⟨ch2, bs2, hfind⟩ := findNode_insert_self w.toLower.data t b
  unfold Trie.insert
  rw [psAux, hfind]
  simp [collect]

/-- Deleting a word/book pair right after inserting it succeeds. -/
theorem trie_delete_after_insert (t : TrieNode) (w : String) (b : Book) :
    (Trie.delete (Trie.insert t w b) w b).2 = true := by
  unfold Trie.delete Trie.insert
  obtain ⟨ch2, bs2, hfind⟩ := findNode_insert_self w.toLower.data t b
  exact (trieDeleteAux_true_iff _ _ _).2
    ⟨.mk ch2 true (bs2 ++ [b]), hfind, rfl, by simp [TrieNode.books]⟩

/-- All three structural invariants of the prefix index, preserved by the
public operations. -/
theorem trie_invariants_insert (t : TrieNode) (w : String) (b : Book) :
    (Pruned t → Pruned (Trie.insert t w b)) ∧
    (Tidy t → Tidy (Trie.insert t w b)) ∧
    (KeysDistinct t → KeysDistinct (Trie.insert t w b)) :=
  ⟨fun h => (trieInsertAux_pruned _ t b h).1,
   fun h => trieInsertAux_tidy _ t b h,
   fun h => trieInsertAux_keysDistinct _ t b h⟩

theorem trie_invariants_delete (t : TrieNode) (w : String) (b : Book) :
    (Pruned t → Pruned ((Trie.delete t w b).1)) ∧
    (Tidy t → Tidy ((Trie.delete t w b).1)) ∧
    (KeysDistinct t → KeysDistinct ((Trie.delete t w b).1)) :=
  ⟨fun h => trieDeleteAux_pruned _ t b h,
   fun h => trieDeleteAux_tidy _ t b h,
   fun h => trieDeleteAux_keysDistinct _ t b h⟩

/-- Invariant preservation along any sequence of ordered-index operations. -/
theorem hb_applyAvlOps {β : Type} (ops : List (AvlOp β)) :
    ∀ t : AVLTree β, AVLTree.HB t → AVLTree.HB (ops.foldl applyAvlOp t) := by
  induction ops with
  | nil => intro t h; exact h
  | cons op rest ih =>
    intro t h
    cases op with
    | ins k v => exact ih _ (AVLTree.hb_insert t k v h).1
    | del k => exact ih _ (AVLTree.hb_delete t k h).1

theorem ordered_applyAvlOps {β : Type} (ops : List (AvlOp β)) :
    ∀ t : AVLTree β, AVLTree.Ordered t → AVLTree.Ordered (ops.foldl applyAvlOp t) := by
  induction ops with
  | nil => intro t h; exact h
  | cons op rest ih =>
    intro t h
    cases op with
    | ins k v => exact ih _ (AVLTree.ordered_insert t k v h)
    | del k => exact ih _ (AVLTree.ordered_delete t k h)

theorem pruned_applyTrieOps (ops : List TrieOp) :
    ∀ t : TrieNode, Pruned t → Pruned (ops.foldl applyTrieOp t) := by
  induction ops with
  | nil => intro t h; exact h
  | cons op rest ih =>
    intro t h
    cases op with
    | ins w b => exact ih _ ((trie_invariants_insert t w b).1 h)
    | del w b => exact ih _ ((trie_invariants_delete t w b).1 h)

/-- `String.toLower` maps `Char.toLower` over the character list (evaluation
bridge for concrete words). -/
theorem data_toLower (s : String) : s.toLower.data = s.data.map Char.toLower := by
  show (String.map Char.toLower s).data = s.data.map Char.toLower
  rw [String.map_eq]

/-- Balance factor of the root of a tree satisfying the height/balance
invariant. -/
theorem hb_balance_bounds {β : Type} {t : AVLTree β} (hb : AVLTree.HB t) :
    -1 ≤ AVLTree.get_balance t ∧ AVLTree.get_balance t ≤ 1 := by
  cases t with
  | nil => simp [AVLTree.get_balance]
  | node nk nv l r h =>
    obtain ⟨_, _, _, h1, h2⟩ := hb
    simp only [AVLTree.get_balance]
    omega

/-- C3: after any sequence of public `insert`/`delete` operations on the
ordered index starting from the empty tree, every node's stored height equals
`1 + max (height left) (height right)` and every node's balance factor
`height(left) - height(right)` lies in `{-1, 0, 1}` (`AVLTree.HB` states
exactly this recursively at every node); in particular the root's balance
factor is between `-1` and `1`. -/
theorem c3_avl_balance_invariant (β : Type) (ops : List (AvlOp β)) :
    AVLTree.HB (applyAvlOps ops) ∧
      -1 ≤ AVLTree.get_balance (applyAvlOps ops) ∧
      AVLTree.get_balance (applyAvlOps ops) ≤ 1 := by
  have h : AVLTree.HB (applyAvlOps ops) := hb_applyAvlOps ops AVLTree.nil trivial
  exact ⟨h, hb_balance_bounds h⟩

/-- C5: after any sequence of public `insert`/`delete` operations on the
ordered index starting from the empty tree, the in-order traversal lists the
stored values in non-decreasing (in fact strictly increasing) order of their
keys: the in-order key list is sorted, and `inorder_traversal` returns the
values in exactly that key order. -/
theorem c5_inorder_sorted (β : Type) (ops : List (AvlOp β)) :
    ((AVLTree.inorderKV (applyAvlOps ops)).map Prod.fst).Pairwise (· ≤ ·) ∧
      AVLTree.inorder_traversal (applyAvlOps ops) =
        (AVLTree.inorderKV (applyAvlOps ops)).map Prod.snd := by
  have ho : AVLTree.Ordered (applyAvlOps ops) :=
    ordered_applyAvlOps ops AVLTree.nil trivial
  refine ⟨?_, AVLTree.inorder_eq_map_snd _⟩
  have hp := (AVLTree.ordered_iff_pairwise _).1 ho
  exact (List.pairwise_map).2 (hp.imp (fun h => le_of_lt h))

/-- C4: after any sequence of public `insert`/`delete` operations on the
prefix index starting from the empty trie, no node other than the root has an
empty children mapping together with `is_end_of_word = false` (`Pruned`); and
deleting a word that is the only entry along its path from a one-word trie
prunes every node created for it, returning the bare root. -/
theorem c4_trie_pruning :
    (∀ ops : List TrieOp, Pruned (applyTrieOps ops)) ∧
      (∀ (w : String) (b : Book),
        Trie.delete (Trie.insert Trie.empty w b) w b = (Trie.empty, true)) :=
  ⟨fun ops => pruned_applyTrieOps ops Trie.empty pruned_empty,
   fun w b => trie_roundtrip_empty w.toLower.data b⟩

/-- C8: `delete(word, value)` on the prefix index returns `true` iff the
word's (lowercased) path exists, ends at a terminal node, and `value` occurs
in that node's payload; returning `false` leaves the trie unchanged; and on
success the terminal node afterwards holds exactly `books.erase value` (one
occurrence removed) with the terminal flag cleared iff that list became empty
(the node itself pruned when it also has no children). -/
theorem c8_trie_delete_contract (t : TrieNode) (w : String) (b : Book) :
    ((Trie.delete t w b).2 = true ↔
      ∃ m, findNode t w.toLower.data = some m ∧
        m.is_end_of_word = true ∧ b ∈ m.books) ∧
    ((Trie.delete t w b).2 = false → (Trie.delete t w b).1 = t) ∧
    (KeysDistinct t → ∀ m, findNode t w.toLower.data = some m →
      m.is_end_of_word = true → b ∈ m.books →
      findNode ((Trie.delete t w b).1) w.toLower.data =
        (if w.toLower.data ≠ [] ∧ (m.books.erase b).isEmpty = true ∧
            m.children.isEmpty = true
         then none
         else some (.mk m.children (!(m.books.erase b).isEmpty) (m.books.erase b)))) :=
  ⟨trieDeleteAux_true_iff _ t b, trieDeleteAux_false _ t b,
   fun hk m h1 h2 h3 => trieDeleteAux_found _ t b m hk h1 h2 h3⟩

/-- C10: the prefix index is case-insensitive: `insert` lowercases the word
before walking, and `prefix_search` lowercases the query, so inserting under
any case variant of a word builds the same trie and searching under any case
variant of a prefix returns the same record sequence. -/
theorem c10_case_insensitive :
    (∀ (t : TrieNode) (w w' : String) (b : Book), w.toLower = w'.toLower →
      Trie.insert t w b = Trie.insert t w' b) ∧
    (∀ (t : TrieNode) (p q : String), p.toLower = q.toLower →
      Trie.prefix_search t p = Trie.prefix_search t q) := by
  constructor
  · intro t w w' b h
    unfold Trie.insert
    rw [h]
  · intro t p q h
    unfold Trie.prefix_search
    rw [h]


/-- C8 at a concrete input: deleting `"Ab"` right after inserting it succeeds,
and deleting from the empty trie fails and is a no-op. -/
theorem c8_trie_delete_contract_witness :
    (Trie.delete (Trie.insert Trie.empty "Ab" c8book) "Ab" c8book).2 = true ∧
    (Trie.delete Trie.empty "Ab" c8book).2 = false ∧
    (Trie.delete Trie.empty "Ab" c8book).1 = Trie.empty := by
  have hd : "Ab".toLower.data = ['a', 'b'] := by rw [data_toLower]; decide
  have h := c8_trie_delete_contract Trie.empty "Ab" c8book
  have hf : (Trie.delete Trie.empty "Ab" c8book).2 = false := by
    unfold Trie.delete
    rw [hd]
    decide
  exact ⟨trie_delete_after_insert Trie.empty "Ab" c8book, hf, h.2.1 hf⟩


/-- C10 at a concrete input: searching the prefix `"DUNE"` and the prefix
`"dune"` in the same trie gives the same result list. -/
theorem c10_case_insensitive_witness :
    Trie.prefix_search (Trie.insert Trie.empty "Dune" c10book) "DUNE" =
      Trie.prefix_search (Trie.insert Trie.empty "Dune" c10book) "dune" :=
  c10_case_insensitive.2 (Trie.insert Trie.empty "Dune" c10book) "DUNE" "dune" (by
    show String.mk "DUNE".toLower.data = String.mk "dune".toLower.data
    rw [data_toLower, data_toLower]
    decide)

namespace HashTable

/-- Exact condition for the collision flag of `insert`: the bucket was
non-empty and held no entry with the inserted key (the overwrite branch
returns before the collision check). -/
theorem insert_collision_iff (ht : HashTable) (k : String) (v : Book) :
    (ht.insert k v).2 = true ↔
      ht.buckets (ht.hashOf k) ≠ [] ∧ ∀ b ∈ ht.buckets (ht.hashOf k), b.isbn ≠ k := by
  cases hrf : replaceFirst (ht.buckets (ht.hashOf k)) k v with
  | some nb =>
    simp only [insert, hrf]
    constructor
    · intro h
      exact absurd h (by simp)
    · rintro ⟨h1, h2⟩
      rw [replaceFirst_none_iff.2 h2] at hrf
      cases hrf
  | none =>
    simp only [insert, hrf]
    constructor
    · intro h
      refine ⟨?_, replaceFirst_none_iff.1 hrf⟩
      intro he
      rw [he] at h
      simp at h
    · rintro ⟨h1, _⟩
      simp [List.isEmpty_iff, h1]

end HashTable

/-- C7 (amended): the collision signal of `insert` fires exactly when the
target bucket is non-empty and does not already hold the inserted key (a
duplicate-key insert overwrites in place and silently returns, so such an
insertion into a non-empty bucket produces no signal — see the
counterexample); and for two records with distinct identifiers hashing to the
same bucket, inserting both signals a collision exactly once (on the second
insert only) and leaves both independently retrievable by key. -/
theorem c7_collision_signal :
    (∀ (ht : HashTable) (k : String) (v : Book),
      ((ht.insert k v).2 = true ↔
        ht.buckets (ht.hashOf k) ≠ [] ∧ ∀ b ∈ ht.buckets (ht.hashOf k), b.isbn ≠ k)) ∧
    (∀ (b1 b2 : Book), b1.isbn ≠ b2.isbn →
      HashTable.empty.hashOf b1.isbn = HashTable.empty.hashOf b2.isbn →
      (HashTable.empty.insert b1.isbn b1).2 = false ∧
      (((HashTable.empty.insert b1.isbn b1).1).insert b2.isbn b2).2 = true ∧
      ((((HashTable.empty.insert b1.isbn b1).1).insert b2.isbn b2).1).get b1.isbn = some b1 ∧
      ((((HashTable.empty.insert b1.isbn b1).1).insert b2.isbn b2).1).get b2.isbn = some b2) := by
  refine ⟨HashTable.insert_collision_iff, ?_⟩
  intro b1 b2 hne hh
  have hfst : (HashTable.empty.insert b1.isbn b1).2 = false := rfl
  have hbucket : ((HashTable.empty.insert b1.isbn b1).1).buckets
      (((HashTable.empty.insert b1.isbn b1).1).hashOf b2.isbn) = [b1] := by
    show (if HashTable.empty.hashOf b2.isbn = HashTable.empty.hashOf b1.isbn
      then ([] : List Book) ++ [b1] else []) = [b1]
    rw [if_pos hh.symm]
    rfl
  refine ⟨hfst, ?_, ?_, HashTable.get_insert_self _ _ _ rfl⟩
  · rw [HashTable.insert_collision_iff, hbucket]
    refine ⟨by simp, ?_⟩
    intro b hb
    rw [List.mem_singleton] at hb
    subst hb
    exact hne
  · rw [HashTable.get_insert_other _ _ _ _ rfl hne]
    exact HashTable.get_insert_self _ _ _ rfl


/-- C7 counterexample to the claim as stated: inserting a record whose key is
already in the (non-empty) bucket takes the overwrite branch and returns
before the collision check, so no collision event is produced. -/
theorem c7_counterexample :
    ((HashTable.empty.insert "ab" c7b1).1).buckets
        (((HashTable.empty.insert "ab" c7b1).1).hashOf "ab") ≠ [] ∧
    (((HashTable.empty.insert "ab" c7b1).1).insert "ab" c7b2).2 = false := by
  constructor
  · decide
  · decide


/-- C7 at a concrete input: `"ab"` and `"ba"` have the same character sum, so
they collide; the second insert signals, both records stay retrievable. -/
theorem c7_collision_signal_witness :
    (((HashTable.empty.insert "ab" c7w1).1).insert "ba" c7w2).2 = true ∧
    ((((HashTable.empty.insert "ab" c7w1).1).insert "ba" c7w2).1).get "ab" = some c7w1 ∧
    ((((HashTable.empty.insert "ab" c7w1).1).insert "ba" c7w2).1).get "ba" = some c7w2 :=
  have h := c7_collision_signal.2 c7w1 c7w2 (by decide) (by decide)
  ⟨h.2.1, h.2.2.1, h.2.2.2⟩


theorem lastIns_append {β : Type} (ps : List (String × β)) (q : String × β) (k : String) :
    lastIns (ps ++ [q]) k = if q.1 = k then some q.2 else lastIns ps k := by
  simp [lastIns, List.foldl_append]

theorem ordered_applyAvlInserts {β : Type} (ps : List (String × β)) :
    AVLTree.Ordered (applyAvlInserts ps) := by
  induction ps using List.reverseRecOn with
  | nil => exact trivial
  | append_singleton ps q ih =>
    have happ : applyAvlInserts (ps ++ [q]) = (applyAvlInserts ps).insert q.1 q.2 := by
      simp [applyAvlInserts, List.foldl_append]
    rw [happ]
    exact AVLTree.ordered_insert _ _ _ ih

theorem get_applyHashInserts (ps : List (String × Book))
    (hps : ∀ p ∈ ps, p.2.isbn = p.1) (k : String) :
    (applyHashInserts ps).get k = lastIns ps k := by
  induction ps using List.reverseRecOn with
  | nil => rfl
  | append_singleton ps q ih =>
    have hq : q.2.isbn = q.1 := hps q (by simp)
    have hps' : ∀ p ∈ ps, p.2.isbn = p.1 := fun p hp => hps p (by simp [hp])
    have happ : applyHashInserts (ps ++ [q]) = ((applyHashInserts ps).insert q.1 q.2).1 := by
      simp [applyHashInserts, List.foldl_append]
    rw [lastIns_append, happ]
    by_cases hk : q.1 = k
    · subst hk
      rw [if_pos rfl]
      exact HashTable.get_insert_self _ _ _ hq
    · rw [if_neg hk, HashTable.get_insert_other _ _ _ _ hq (fun he => hk he.symm)]
      exact ih hps'

theorem search_applyAvlInserts {β : Type} (ps : List (String × β)) (k : String) :
    AVLTree.search (applyAvlInserts ps) k = lastIns ps k := by
  induction ps using List.reverseRecOn with
  | nil => rfl
  | append_singleton ps q ih =>
    have happ : applyAvlInserts (ps ++ [q]) = (applyAvlInserts ps).insert q.1 q.2 := by
      simp [applyAvlInserts, List.foldl_append]
    rw [lastIns_append, happ]
    by_cases hk : q.1 = k
    · subst hk
      rw [if_pos rfl]
      exact AVLTree.search_insert_self _ _ _ (ordered_applyAvlInserts ps)
    · rw [if_neg hk,
        AVLTree.search_insert_other _ _ _ _ (ordered_applyAvlInserts ps) (fun he => hk he.symm)]
      exact ih

theorem replaceFirst_length :
    ∀ {l nb : List Book} {k : String} {v : Book},
      HashTable.replaceFirst l k v = some nb → nb.length = l.length := by
  intro l
  induction l with
  | nil => intro nb k v h; simp [HashTable.replaceFirst] at h
  | cons b t ih =>
    intro nb k v h
    by_cases hb : b.isbn = k
    · simp only [HashTable.replaceFirst, hb, if_true] at h
      cases h
      simp
    · simp only [HashTable.replaceFirst, hb, if_false, Option.map_eq_some'] at h
      obtain ⟨m, hm, rfl⟩ := h
      simp [ih hm]

/-- C6: looking a key up in the direct index (`get`) or the ordered index
(`search`) after any batch of insertions returns the value most recently
inserted for that key (for the hash table, under the engine's use pattern
where the stored record's identifier is the key, since the duplicate scan
matches on `b.isbn`); and a duplicate-key insert overwrites in place: the
ordered index gains no node and the hash chain gains no entry. -/
theorem c6_last_writer_wins :
    (∀ (ps : List (String × Book)), (∀ p ∈ ps, p.2.isbn = p.1) →
      ∀ k, (applyHashInserts ps).get k = lastIns ps k) ∧
    (∀ (β : Type) (ps : List (String × β)) (k : String),
      AVLTree.search (applyAvlInserts ps) k = lastIns ps k) ∧
    (∀ (β : Type) (t : AVLTree β) (k : String) (v w : β),
      AVLTree.search t k = some w →
      AVLTree.size (t.insert k v) = AVLTree.size t) ∧
    (∀ (ht : HashTable) (k : String) (v : Book),
      (∃ b ∈ ht.buckets (ht.hashOf k), b.isbn = k) →
      (((ht.insert k v).1).buckets (ht.hashOf k)).length =
        (ht.buckets (ht.hashOf k)).length) := by
  refine ⟨fun ps h k => get_applyHashInserts ps h k,
    fun β ps k => search_applyAvlInserts ps k,
    fun β t k v w hf => AVLTree.size_insert_of_found t k v w hf, ?_⟩
  rintro ht k v ⟨b, hb, hisbn⟩
  cases hrf : HashTable.replaceFirst (ht.buckets (ht.hashOf k)) k v with
  | none => exact absurd hisbn (HashTable.replaceFirst_none_iff.1 hrf b hb)
  | some nb =>
    have h1 : (ht.insert k v).1.buckets (ht.hashOf k) = nb := by
      simp [HashTable.insert, hrf]
    rw [h1]
    exact replaceFirst_length hrf


/-- C6 at a concrete input: two inserts under the same key; both indexes
return the second value, the tree has one node, the chain keeps length 1. -/
theorem c6_last_writer_wins_witness :
    (applyHashInserts [("k1", c6b1), ("k1", c6b2)]).get "k1" = some c6b2 ∧
    AVLTree.search (applyAvlInserts [("k1", (1 : Nat)), ("k1", 2)]) "k1" = some 2 ∧
    AVLTree.size ((AVLTree.nil.insert "k1" (1 : Nat)).insert "k1" 2) =
      AVLTree.size (AVLTree.nil.insert "k1" (1 : Nat)) ∧
    ((((HashTable.empty.insert "k1" c6b1).1).insert "k1" c6b2).1.buckets
        (((HashTable.empty.insert "k1" c6b1).1).hashOf "k1")).length =
      (((HashTable.empty.insert "k1" c6b1).1).buckets
        (((HashTable.empty.insert "k1" c6b1).1).hashOf "k1")).length := by
  have h := c6_last_writer_wins
  refine ⟨?_, ?_, h.2.2.1 Nat _ "k1" 2 1 (by decide),
    h.2.2.2 _ "k1" c6b2 (by decide)⟩
  · rw [h.1 [("k1", c6b1), ("k1", c6b2)] (by decide) "k1"]
    decide
  · rw [h.2.1 Nat [("k1", (1 : Nat)), ("k1", 2)] "k1"]
    decide

/-- A tree with an empty in-order listing is the empty tree. -/
theorem eq_nil_of_inorderKV_nil {β : Type} {t : AVLTree β}
    (h : AVLTree.inorderKV t = []) : t = AVLTree.nil := by
  cases t with
  | nil => rfl
  | node k v l r hh => simp [AVLTree.inorderKV] at h

/-- C2: the coordinator's add does persist the record to the store first, but
it then always raises: `dsa_engine.avl.insert(book.title.lower(), book,
db=db)` (synchronizer.py line 29) passes a `db` keyword that
`AVLTree.insert(self, key, value)` does not accept, so a `TypeError` fires
before any of the three index inserts runs.  When the call unwinds, the
record is committed to the store but retrievable from no index: every index
equals the pre-call one, and concretely, after adding to the empty state the
ordered, direct and prefix lookups all come back empty.  The
`services/library.py` path fails the claim as well: it stores raw integer
ids in the hash chains, so its `b.isbn` chain scan raises `AttributeError`
on the first insert that hits a non-empty bucket (last conjunct, for a
second record whose identifier lands in the occupied bucket). -/
theorem c2_add_book_crash :
    (∀ (s : SyncState) (b : Book),
      Sync.add_book s b = (Sync.persistNew s b, true) ∧
      (Sync.add_book s b).1.avl = s.avl ∧
      (Sync.add_book s b).1.hash = s.hash ∧
      (Sync.add_book s b).1.trie = s.trie ∧
      b ∈ (Sync.add_book s b).1.db) ∧
    (Sync.add_book Sync.empty c2book).2 = true ∧
    AVLTree.search (Sync.add_book Sync.empty c2book).1.avl c2book.title.toLower = none ∧
    HashTable.get (Sync.add_book Sync.empty c2book).1.hash c2book.isbn = none ∧
    Trie.prefix_search (Sync.add_book Sync.empty c2book).1.trie c2book.title = [] ∧
    (Lib.add_new_book Lib.empty c2book).2 = false ∧
    (Lib.add_new_book (Lib.add_new_book Lib.empty c2book).1 c2clash).2 = true := by
  refine ⟨fun s b => ⟨rfl, rfl, rfl, rfl, by simp [Sync.add_book, Sync.persistNew]⟩,
    rfl, rfl, rfl, ?_, ?_, ?_⟩
  · rw [prefix_search_eq_psAux]
    exact psAux_empty _
  · decide
  · decide


/-- Every state reachable from the empty coordinator state satisfies the
ordered-index BST invariant and the prefix-index structural invariants, so
the hypotheses of the round-trip theorem hold in every reachable state. -/
theorem syncOps_invariants (ops : List SyncOp) :
    ∀ s : SyncState,
      AVLTree.Ordered s.avl → Tidy s.trie → KeysDistinct s.trie →
      AVLTree.Ordered (ops.foldl applySyncOp s).avl ∧
        Tidy (ops.foldl applySyncOp s).trie ∧
        KeysDistinct (ops.foldl applySyncOp s).trie := by
  induction ops with
  | nil => exact fun s h1 h2 h3 => ⟨h1, h2, h3⟩
  | cons op rest ih =>
    intro s h1 h2 h3
    apply ih
    · cases op with
      | load b => exact AVLTree.ordered_insert _ _ _ h1
      | add b => exact h1
      | del b => exact AVLTree.ordered_delete _ _ h1
      | upd b f => exact AVLTree.ordered_delete _ _ h1
    · cases op with
      | load b => exact trieInsertAux_tidy _ _ _ h2
      | add b => exact h2
      | del b => exact trieDeleteAux_tidy _ _ _ h2
      | upd b f => exact trieDeleteAux_tidy _ _ _ h2
    · cases op with
      | load b => exact trieInsertAux_keysDistinct _ _ _ h3
      | add b => exact h3
      | del b => exact trieDeleteAux_keysDistinct _ _ _ h3
      | upd b f => exact trieDeleteAux_keysDistinct _ _ _ h3

/-- C9 (amended): from any starting state satisfying the structural
invariants (all reachable states do), `insert(r); remove(r); insert(r)`
leaves the ordered index with the same in-order contents, the same exact
lookups and the same sorted traversal as a single `insert(r)`, the direct
index with the same lookups for every key, and the prefix index with the
same prefix-search results up to reordering (the payload lists can differ in
order, so list equality fails — see the counterexample). -/
theorem c9_insert_remove_insert (s : SyncState) (r : Book)
    (ho : AVLTree.Ordered s.avl) (ht : Tidy s.trie) (hk : KeysDistinct s.trie) :
    AVLTree.inorderKV (insRemIns s r).avl =
      AVLTree.inorderKV (Sync.insertIntoIndexes s r).avl ∧
    (∀ q : String, AVLTree.search (insRemIns s r).avl q =
      AVLTree.search (Sync.insertIntoIndexes s r).avl q) ∧
    AVLTree.inorder_traversal (insRemIns s r).avl =
      AVLTree.inorder_traversal (Sync.insertIntoIndexes s r).avl ∧
    (∀ k : String, HashTable.get (insRemIns s r).hash k =
      HashTable.get (Sync.insertIntoIndexes s r).hash k) ∧
    (∀ p : String, (Trie.prefix_search (insRemIns s r).trie p).Perm
      (Trie.prefix_search (Sync.insertIntoIndexes s r).trie p)) := by
  have ho1 : AVLTree.Ordered (s.avl.insert r.title.toLower r) :=
    AVLTree.ordered_insert _ _ _ ho
  have ho2 : AVLTree.Ordered ((s.avl.insert r.title.toLower r).delete r.title.toLower) :=
    AVLTree.ordered_delete _ _ ho1
  have havl3 : (insRemIns s r).avl =
      ((s.avl.insert r.title.toLower r).delete r.title.toLower).insert r.title.toLower r := rfl
  have havl1 : (Sync.insertIntoIndexes s r).avl = s.avl.insert r.title.toLower r := rfl
  have hkv : AVLTree.inorderKV (insRemIns s r).avl =
      AVLTree.inorderKV (Sync.insertIntoIndexes s r).avl := by
    rw [havl3, havl1, AVLTree.inorderKV_insert _ _ _ ho2,
        AVLTree.inorderKV_delete _ _ ho1, AVLTree.inorderKV_insert _ _ _ ho,
        AVLTree.listInsert_listEraseKey _ _ _
          (AVLTree.pairwise_listInsert _ ((AVLTree.ordered_iff_pairwise _).1 ho)),
        AVLTree.listInsert_listInsert]
  refine ⟨hkv, ?_, ?_, ?_, ?_⟩
  · intro q
    rw [AVLTree.search_eq_lookupKey _ _
          (by rw [havl3]; exact AVLTree.ordered_insert _ _ _ ho2),
        AVLTree.search_eq_lookupKey _ _ (by rw [havl1]; exact ho1), hkv]
  · rw [AVLTree.inorder_eq_map_snd, AVLTree.inorder_eq_map_snd, hkv]
  · intro k
    have hh3 : (insRemIns s r).hash =
        ((((s.hash.insert r.isbn r).1).delete r.isbn).insert r.isbn r).1 := rfl
    have hh1 : (Sync.insertIntoIndexes s r).hash = (s.hash.insert r.isbn r).1 := rfl
    rw [hh3, hh1]
    by_cases hk' : k = r.isbn
    · subst hk'
      rw [HashTable.get_insert_self _ _ _ rfl, HashTable.get_insert_self _ _ _ rfl]
    · rw [HashTable.get_insert_other _ _ _ _ rfl hk',
          HashTable.get_insert_other _ _ _ _ rfl hk',
          HashTable.get_delete_other _ _ _ hk']
      exact HashTable.get_insert_other _ _ _ _ rfl hk'
  · intro p
    have htr3 : (insRemIns s r).trie =
        trieInsertAux ((trieDeleteAux (trieInsertAux s.trie r.title.toLower.data r)
          r.title.toLower.data r).1) r.title.toLower.data r := rfl
    have htr1 : (Sync.insertIntoIndexes s r).trie =
        trieInsertAux s.trie r.title.toLower.data r := rfl
    rw [prefix_search_eq_psAux, prefix_search_eq_psAux, htr3, htr1]
    have ht1 : Tidy (trieInsertAux s.trie r.title.toLower.data r) :=
      trieInsertAux_tidy _ _ _ ht
    have hk1 : KeysDistinct (trieInsertAux s.trie r.title.toLower.data r) :=
      trieInsertAux_keysDistinct _ _ _ hk
    have hsucc : (trieDeleteAux (trieInsertAux s.trie r.title.toLower.data r)
        r.title.toLower.data r).2 = true :=
      trie_delete_after_insert s.trie r.title r
    have ht2 : Tidy ((trieDeleteAux (trieInsertAux s.trie r.title.toLower.data r)
        r.title.toLower.data r).1) := trieDeleteAux_tidy _ _ _ ht1
    by_cases hpre : p.toLower.data <+: r.title.toLower.data
    · exact (psAux_insert_of_isPrefixOf _ _ _ _ ht2 hpre).trans
        (psAux_delete_of_isPrefixOf _ _ _ _ hk1 hsucc hpre).symm
    · rw [psAux_insert_of_not_isPrefixOf _ _ _ _ hpre,
          psAux_delete_of_not_isPrefixOf _ _ _ _ hk1 hsucc hpre]


/-- C9 at a concrete input: the round trip from the empty state. -/
theorem c9_insert_remove_insert_witness :
    AVLTree.inorderKV (insRemIns Sync.empty c9w).avl =
      AVLTree.inorderKV (Sync.insertIntoIndexes Sync.empty c9w).avl ∧
    (∀ q : String, AVLTree.search (insRemIns Sync.empty c9w).avl q =
      AVLTree.search (Sync.insertIntoIndexes Sync.empty c9w).avl q) ∧
    AVLTree.inorder_traversal (insRemIns Sync.empty c9w).avl =
      AVLTree.inorder_traversal (Sync.insertIntoIndexes Sync.empty c9w).avl ∧
    (∀ k : String, HashTable.get (insRemIns Sync.empty c9w).hash k =
      HashTable.get (Sync.insertIntoIndexes Sync.empty c9w).hash k) ∧
    (∀ p : String, (Trie.prefix_search (insRemIns Sync.empty c9w).trie p).Perm
      (Trie.prefix_search (Sync.insertIntoIndexes Sync.empty c9w).trie p)) :=
  c9_insert_remove_insert Sync.empty c9w trivial tidy_empty keysDistinct_empty


/-- C9 counterexample to the claim as stated: starting from a prefix index
holding the records `c9r` and `c9c` under the word "a",
`insert(c9r); remove(c9r); insert(c9r)` yields the payload sequence
`[c9c, c9r, c9r]` for the prefix "a" while a single `insert(c9r)` yields
`[c9r, c9c, c9r]` — equal as multisets but not as sequences, so the prefix
index is not left in the same observable state. -/
theorem c9_counterexample :
    Trie.prefix_search
        (Trie.insert ((Trie.delete (Trie.insert c9t0 "a" c9r) "a" c9r).1) "a" c9r) "a" ≠
      Trie.prefix_search (Trie.insert c9t0 "a" c9r) "a" := by
  have hd : "a".toLower.data = ['a'] := by rw [data_toLower]; decide
  simp only [Trie.prefix_search, Trie.insert, Trie.delete, c9t0, Trie.empty, hd]
  decide


/-- C1: neither coordinator follows the update contract.  In
`core/synchronizer.py`, `update_book` removes the old index entries (lines
58–60, old keys) and commits the field changes (lines 63–66), but the
re-insert step calls `dsa_engine.avl.insert(..., db=db)` (line 69) with a
`db` keyword that `AVLTree.insert` does not accept: a `TypeError` is raised
and no index insert executes, so the updated record ends up in *no* index
(first conjunct, definitional; then evaluated on a loaded one-book state:
every lookup under the old or the new title comes back empty while the store
holds the new title).  In `services/library.py`, `update_existing_book`
commits the mutation first and passes the already-mutated book to
`remove_book`/`add_new_book`: at the failing input the removal runs with the
new title, its hash-chain scan raises (`true` flag), the ordered index keeps
a stale entry under the old title "a", has no entry under "b", the prefix
index keeps the stale payload under "a", while the store already holds the
new title "b" (remaining conjuncts). -/
theorem c1_update_reindex_divergence :
    (∀ (s : SyncState) (b : Book) (f : UpdatedFields),
      Sync.update_book s b f =
        (Sync.persistFields (Sync.removeFromIndexes s b) b f, true)) ∧
    (Sync.update_book c1sync c1book c1fields).2 = true ∧
    AVLTree.search (Sync.update_book c1sync c1book c1fields).1.avl "a" = none ∧
    AVLTree.search (Sync.update_book c1sync c1book c1fields).1.avl "b" = none ∧
    HashTable.get (Sync.update_book c1sync c1book c1fields).1.hash "isbn1" = none ∧
    Trie.prefix_search (Sync.update_book c1sync c1book c1fields).1.trie "a" = [] ∧
    Trie.prefix_search (Sync.update_book c1sync c1book c1fields).1.trie "b" = [] ∧
    (Sync.update_book c1sync c1book c1fields).1.db.map Book.title = ["b"] ∧
    (Lib.add_new_book Lib.empty c1book).2 = false ∧
    c1run.2.2 = true ∧
    AVLTree.search c1run.1.avl "a" = some 1 ∧
    AVLTree.search c1run.1.avl "b" = none ∧
    (Trie.prefix_search c1run.1.trie "a").map Book.book_id = [1] ∧
    c1run.1.db.map Book.title = ["b"] := by
  have hda : "a".toLower.data = ['a'] := by rw [data_toLower]; decide
  have hdb : "b".toLower.data = ['b'] := by rw [data_toLower]; decide
  have hba : ¬ ("b" : String) < "a" := by rw [String.lt_iff_toList_lt]; decide
  have hab : ("a" : String) < "b" := by rw [String.lt_iff_toList_lt]; decide
  have havl : (Sync.update_book c1sync c1book c1fields).1.avl = AVLTree.nil := by
    apply eq_nil_of_inorderKV_nil
    show AVLTree.inorderKV
        ((AVLTree.insert AVLTree.nil c1book.title.toLower c1book).delete
          c1book.title.toLower) = []
    rw [AVLTree.inorderKV_delete _ _
          (AVLTree.ordered_insert AVLTree.nil c1book.title.toLower c1book trivial),
        AVLTree.inorderKV_insert AVLTree.nil c1book.title.toLower c1book trivial]
    simp [AVLTree.listInsert, AVLTree.listEraseKey, AVLTree.inorderKV]
  have htrie : (Sync.update_book c1sync c1book c1fields).1.trie = Trie.empty :=
    congrArg Prod.fst (trie_roundtrip_empty c1book.title.toLower.data c1book)
  refine ⟨fun s b f => rfl, rfl, by rw [havl]; rfl, by rw [havl]; rfl, by decide,
    by rw [htrie, prefix_search_eq_psAux]; exact psAux_empty _,
    by rw [htrie, prefix_search_eq_psAux]; exact psAux_empty _,
    by decide, ?_, ?_, ?_, ?_, ?_, ?_⟩ <;>
    simp only [c1run, c1fields, c1book, Lib.update_existing_book, Lib.add_new_book,
      Lib.remove_book, Lib.empty, applyFields, commitRow, Option.getD_some,
      Option.getD_none, Trie.insert, Trie.delete, Trie.prefix_search, hda, hdb] <;>
    simp [AVLTree.insert, AVLTree.delete, AVLTree.delRebalance, AVLTree.search,
      AVLTree.height, AVLTree.get_balance, hba, hab] <;>
    decide
